import Mathlib

/-!
Verification of the Smart-Pager scheduling core.

This file gives a shallow embedding of the scheduling core of the repository
(`server/modules/scheduler.py`, `server/modules/schedule_manager.py`,
`server/modules/context_manager.py`, and the persistence-relevant skeleton of
`handle_modify_schedule` in `server/modules/audio_pipeline.py`), and proves or
refutes the claims of the specification against it.

Modelling conventions:
- Timestamps are integers counting minutes since local midnight of the
  scheduling day (the code parses ISO timestamps and immediately converts to
  minutes since the day start; all times produced by the pipeline are
  minute-aligned HH:MM values).  The default day window 08:00 - 21:00 is
  480 - 1260 in these units.
- Python dicts representing events become the `Event` structure; a key that
  may be absent becomes an `Option` field, and unknown opaque pass-through
  keys (such as `externalRef` / `_calendar_id`) become the `extra`
  association list.
- Python exceptions become `Except` values: `PyErr.keyError` for an uncaught
  KeyError (a crash), `PyErr.runtime msg` for `RuntimeError(msg)`.
- The OR-Tools CP-SAT solver is external to the repository; it is modelled as
  an oracle parameter that, given the built model, returns either an
  assignment of start minutes to the flexible tasks or `none` (infeasible).
  The repository's result-construction code around the solver is embedded
  faithfully.
- `list.sort(key=...)` in Python is a stable sort; a stable sort by a fixed
  key is unique, so the structurally recursive stable insertion sort
  `sortByStart` below computes exactly the same list.
-/

/-- One scheduling event / task, i.e. one of the JSON event dicts flowing
through the pipeline.  Optional dict keys are `Option` fields; `extra` keeps
the opaque pass-through keys (`externalRef`, `_calendar_id`, ...). -/
structure Event where
  name : String
  type_ : Option String := none
  start : Option Int := none
  end_ : Option Int := none
  durationMinutes : Option Int := none
  earliestStart : Option Int := none
  latestEnd : Option Int := none
  extra : List (String × String) := []
deriving DecidableEq, Repr

/-- `recommendation` dict of a ConflictRecord. -/
structure Recommendation where
  start : Int
  end_ : Int
deriving DecidableEq, Repr

/-- One conflict-report dict from `detect_and_resolve_conflicts`. -/
structure ConflictRecord where
  newEvent : Event
  existingEvent : Event
  existingType : String
  recommendation : Option Recommendation
deriving DecidableEq, Repr

/-- `check_time_overlap` (scheduler.py): parse the four timestamps, return
False on a missing key, else half-open interval overlap. -/
def check_time_overlap (e1 e2 : Event) : Bool :=
  match e1.start, e1.end_, e2.start, e2.end_ with
  | some s1, some f1, some s2, some f2 => !(f1 ≤ s2 || f2 ≤ s1)
  | _, _, _, _ => false

/-- `find_conflicts` (scheduler.py): all existing events that overlap the new
event, in list order. -/
def find_conflicts (newEvent : Event) (existing : List Event) : List Event :=
  existing.filter (fun e => check_time_overlap newEvent e)

/-- The recommendation computed inside `detect_and_resolve_conflicts`:
start = existing event's end, end = start + duration(new event); `none` when
a timestamp is missing (the bare `except` branch). -/
def conflict_recommendation (newEvent conflictEvent : Event) : Option Recommendation :=
  match conflictEvent.end_, newEvent.start, newEvent.end_ with
  | some ce, some ns, some ne => some ⟨ce, ce + (ne - ns)⟩
  | _, _, _ => none

/-- The conflict dict appended by `detect_and_resolve_conflicts`
(`existing_type` defaults to "fixed" when the key is absent). -/
def mkConflictRecord (newEvent conflictEvent : Event) : ConflictRecord :=
  { newEvent := newEvent
    existingEvent := conflictEvent
    existingType := conflictEvent.type_.getD "fixed"
    recommendation := conflict_recommendation newEvent conflictEvent }

/-- Running state of `detect_and_resolve_conflicts`: the accepted adds
(`events_to_add`), the conflict reports, and the tentative schedule. -/
structure DetectState where
  eventsToAdd : List Event
  conflicts : List ConflictRecord
  tentative : List Event
deriving DecidableEq, Repr

/-- Body of the `for conflict_event in current_conflicts` loop: a fixed new
event displaces a flexible tentative item (erased from the tentative set and
re-queued into `events_to_add`); any other overlap appends a ConflictRecord. -/
def processConflict (newEvent : Event) (st : DetectState) (conflictEvent : Event) :
    DetectState :=
  if newEvent.type_ == some "fixed" && conflictEvent.type_ == some "flexible" then
    { st with
      tentative := st.tentative.erase conflictEvent
      eventsToAdd := st.eventsToAdd ++ [conflictEvent] }
  else
    { st with conflicts := st.conflicts ++ [mkConflictRecord newEvent conflictEvent] }

/-- Body of the `for new_event in new_events` loop of
`detect_and_resolve_conflicts`.  Note the final guard is `if not conflicts:`
on the batch-global conflict list, exactly as in the source. -/
def detectStep (st : DetectState) (newEvent : Event) : DetectState :=
  if newEvent.type_ == some "flexible" then
    { st with
      eventsToAdd := st.eventsToAdd ++ [newEvent]
      tentative := st.tentative ++ [newEvent] }
  else
    let cur := find_conflicts newEvent st.tentative
    if cur.isEmpty then
      { st with
        eventsToAdd := st.eventsToAdd ++ [newEvent]
        tentative := st.tentative ++ [newEvent] }
    else
      let st1 := cur.foldl (processConflict newEvent) st
      if st1.conflicts.isEmpty then
        { st1 with
          eventsToAdd := st1.eventsToAdd ++ [newEvent]
          tentative := st1.tentative ++ [newEvent] }
      else
        st1

/-- State of `detect_and_resolve_conflicts` after processing a prefix of the
add batch against the given existing events. -/
def detectRun (existing : List Event) (newEvents : List Event) : DetectState :=
  newEvents.foldl detectStep ⟨[], [], existing⟩

/-- `detect_and_resolve_conflicts` (scheduler.py): returns
(events_to_add, conflicts). -/
def detect_and_resolve_conflicts (existing : List Event) (newEvents : List Event) :
    List Event × List ConflictRecord :=
  let st := detectRun existing newEvents
  (st.eventsToAdd, st.conflicts)

/-! ### Python exceptions and sorting -/

/-- Python exceptions relevant to the scheduling core: an uncaught `KeyError`
(crash) and `RuntimeError(msg)` (caught by `optimize_day_events`). -/
inductive PyErr where
  | keyError
  | runtime (msg : String)
  | osError
deriving DecidableEq, Repr

/-- Sort key used by every `sort(key=lambda e: e["start"])` in scheduler.py.
ISO timestamps of one day compare exactly like their minute values.  Every
call site guarantees the key is present; the default is never read. -/
def eventStartKey (e : Event) : Int :=
  e.start.getD 0

/-- The ordering used by the sorts in scheduler.py. -/
def startLe (a b : Event) : Prop :=
  eventStartKey a ≤ eventStartKey b

instance : DecidableRel startLe := fun a b =>
  inferInstanceAs (Decidable (eventStartKey a ≤ eventStartKey b))

instance : IsTotal Event startLe := ⟨fun _ _ => le_total _ _⟩

instance : IsTrans Event startLe := ⟨fun _ _ _ => le_trans⟩

/-- Python's `list.sort(key=lambda e: e["start"])`: a stable sort by the
start key.  A stable sort by a fixed key is extensionally unique, so the
stable insertion sort computes the same list as Python's Timsort. -/
def sortByStart (l : List Event) : List Event :=
  l.insertionSort startLe

/-! ### Dicts

Python dict semantics: insertion keeps first-insertion position when the key
already exists; lookup finds the unique binding. -/

/-- `d[k] = v` on a Python dict represented as an association list. -/
def dictInsert (k : String) (v : α) (d : List (String × α)) : List (String × α) :=
  if d.any (fun p => p.1 == k) then
    d.map (fun p => if p.1 == k then (k, v) else p)
  else
    d ++ [(k, v)]

/-- `d.get(k)` on a Python dict represented as an association list. -/
def dictGet? (d : List (String × α)) (k : String) : Option α :=
  (d.find? (fun p => p.1 == k)).map (·.2)

/-- `{e["name"]: e for e in l}`. -/
def dictOfEventsByName (l : List Event) : List (String × Event) :=
  l.foldl (fun d e => dictInsert e.name e d) []

/-! ### build_schedule_model / solve_schedule / schedule_day

The day window is the default 08:00 - 21:00 (the only one the weekly pipeline
uses), i.e. minutes 480 - 1260; solver-internal minutes are relative to the
day start, so the horizon is [0, 780].  The calendar date only anchors the
ISO strings and does not affect the minute arithmetic, so it is dropped. -/

/-- Minute value of the default `dayStart` "08:00". -/
def DAY_START_MIN : Int := 480

/-- Minute value of the default `dayEnd` "21:00". -/
def DAY_END_MIN : Int := 1260

/-- The `RuntimeError` message raised by `build_schedule_model` when a
flexible task's start domain is empty (start_ub < start_lb). -/
def impossibleWindowMsg (name : String) : String :=
  "Task \x27" ++ name ++ "\x27 has an impossible time window."

/-- The model data produced by `build_schedule_model`: interval names in
creation order, the flexible-start variables with their bounds, the duration
and fixed-start maps, and the name-keyed event map used to preserve
pass-through fields. -/
structure BuildOut where
  intervals : List String
  startVars : List (String × (Int × Int))
  durationMap : List (String × Int)
  fixedStarts : List (String × Int)
  eventMap : List (String × Event)
deriving Repr

/-- The `for event in data.get("events", [])` loop of `build_schedule_model`:
`event["start"]` / `event["end"]` raise KeyError when absent. -/
def buildFixedEvents : List Event → BuildOut → Except PyErr BuildOut
  | [], b => .ok b
  | e :: es, b =>
    match e.start, e.end_ with
    | some s, some f =>
      let startMin := s - DAY_START_MIN
      let endMin := f - DAY_START_MIN
      buildFixedEvents es
        { b with
          durationMap := dictInsert e.name (endMin - startMin) b.durationMap
          fixedStarts := dictInsert e.name startMin b.fixedStarts
          intervals := b.intervals ++ [e.name] }
    | _, _ => .error .keyError

/-- The `for task in data.get("tasks", [])` loop of `build_schedule_model`:
missing `durationMinutes` raises KeyError; missing window bounds default to
the day window; an empty start domain raises the named RuntimeError. -/
def buildTasks : List Event → BuildOut → Except PyErr BuildOut
  | [], b => .ok b
  | t :: ts, b =>
    match t.durationMinutes with
    | none => .error .keyError
    | some d =>
      let earliestMin := t.earliestStart.getD DAY_START_MIN - DAY_START_MIN
      let latestMin := t.latestEnd.getD DAY_END_MIN - DAY_START_MIN
      let lb := earliestMin
      let ub := latestMin - d
      if ub < lb then
        .error (.runtime (impossibleWindowMsg t.name))
      else
        buildTasks ts
          { b with
            durationMap := dictInsert t.name d b.durationMap
            intervals := b.intervals ++ [t.name]
            startVars := dictInsert t.name (lb, ub) b.startVars }

/-- `build_schedule_model` (scheduler.py), for the default day window; the
event map is `{**events_by_name, **tasks_by_name}`. -/
def build_schedule_model (events tasks : List Event) : Except PyErr BuildOut := do
  let b0 : BuildOut :=
    ⟨[], [], [], [], tasks.foldl (fun d t => dictInsert t.name t d) (dictOfEventsByName events)⟩
  let b1 ← buildFixedEvents events b0
  buildTasks tasks b1

/-- The CP-SAT solver is external to the repository: an oracle that, given
the built model, returns an assignment of relative start minutes to the
flexible-start variables, or `none` when the model is infeasible. -/
def Oracle := BuildOut → Option (String → Int)

/-- The fixed-event output dict built by `solve_schedule`: the original
event-map entry updated with name, type, start, end. -/
def solveFixedOut (b : BuildOut) (n : String) : Event :=
  let startMin := (dictGet? b.fixedStarts n).getD 0
  let d := (dictGet? b.durationMap n).getD 0
  let orig := (dictGet? b.eventMap n).getD { name := n }
  { orig with
    name := n
    type_ := some "fixed"
    start := some (DAY_START_MIN + startMin)
    end_ := some (DAY_START_MIN + startMin + d) }

/-- The flexible-task output dict built by `solve_schedule` from the solver
value of the task's start variable. -/
def solveFlexOut (b : BuildOut) (asg : String → Int) (n : String) : Event :=
  let startMin := asg n
  let d := (dictGet? b.durationMap n).getD 0
  let orig := (dictGet? b.eventMap n).getD { name := n }
  { orig with
    name := n
    type_ := some "flexible"
    start := some (DAY_START_MIN + startMin)
    end_ := some (DAY_START_MIN + startMin + d) }

/-- `solve_schedule` (scheduler.py): infeasibility raises the RuntimeError;
on success the fixed events (interval entries whose name is not a flexible
start variable) and then the flexible tasks are rebuilt from the event map,
and the result is sorted by start. -/
def solve_schedule (b : BuildOut) (oracle : Oracle) : Except PyErr (List Event) :=
  match oracle b with
  | none => .error (.runtime "No feasible schedule could be found.")
  | some asg =>
    let svNames := b.startVars.map (·.1)
    let fixedOuts :=
      (b.intervals.filter (fun n => !(svNames.contains n))).map (solveFixedOut b)
    let flexOuts := svNames.map (solveFlexOut b asg)
    .ok (sortByStart (fixedOuts ++ flexOuts))

/-- `schedule_day` (scheduler.py): empty input short-circuits, else build and
solve. -/
def schedule_day (events tasks : List Event) (oracle : Oracle) :
    Except PyErr (List Event) :=
  if events.isEmpty && tasks.isEmpty then .ok []
  else do
    let b ← build_schedule_model events tasks
    solve_schedule b oracle

/-! ### optimize_day_events -/

/-- Result dict of `optimize_day_events` / the optimizer part of
`merge_and_optimize_events`: the events list plus the optional "error" key. -/
structure OptOut where
  events : List Event
  error : Option String
deriving DecidableEq, Repr

/-- The `try: ... except: duration = 60` fallback. -/
def flexFallbackDuration (e : Event) : Int :=
  match e.start, e.end_ with
  | some s, some f => f - s
  | _, _ => 60

/-- Duration computed for a flexible event in `optimize_day_events`:
`durationMinutes` if present and truthy, else end - start, else 60. -/
def flexDuration (e : Event) : Int :=
  match e.durationMinutes with
  | some d => if d != 0 then d else flexFallbackDuration e
  | none => flexFallbackDuration e

/-- The flexible-branch transformation of `optimize_day_events`: copy the
event and normalize type and duration (window fields are re-set to their own
values). -/
def toFlexibleTask (e : Event) : Event :=
  { e with type_ := some "flexible", durationMinutes := some (flexDuration e) }

/-- The fixed-branch transformation of `optimize_day_events`:
`event["start"]` / `event["end"]` raise KeyError when absent. -/
def toFixedEvent (e : Event) : Except PyErr Event :=
  match e.start, e.end_ with
  | some _, some _ => .ok { e with type_ := some "fixed" }
  | _, _ => .error .keyError

/-- The partition loop of `optimize_day_events`: events whose type is exactly
"flexible" become tasks, everything else is treated as fixed. -/
def partitionDayEvents : List Event → Except PyErr (List Event × List Event)
  | [] => .ok ([], [])
  | e :: es =>
    if e.type_ == some "flexible" then do
      let (fs, ts) ← partitionDayEvents es
      .ok (fs, toFlexibleTask e :: ts)
    else do
      let f ← toFixedEvent e
      let (fs, ts) ← partitionDayEvents es
      .ok (f :: fs, ts)

/-- The dict a demoted fixed event is replaced by: only name, type and
duration survive (`try` computes end - start, the `except` default is 60). -/
def demotedTask (e : Event) : Event :=
  { name := e.name
    type_ := some "flexible"
    durationMinutes := some (flexFallbackDuration e) }

/-- One step of the fixed/fixed conflict scan of `optimize_day_events`: keep
the event if it does not conflict with the already-kept ones, else demote it
to a flexible task. -/
def resolveFixedStep (acc : List Event × List Event) (e : Event) :
    List Event × List Event :=
  if (find_conflicts e acc.1).isEmpty then
    (acc.1 ++ [e], acc.2)
  else
    (acc.1, acc.2 ++ [demotedTask e])

/-- The fixed/fixed conflict scan: walk the fixed events sorted by start,
returning (kept fixed events, demoted tasks in scan order). -/
def resolveFixedScan (fixedEvents : List Event) : List Event × List Event :=
  (sortByStart fixedEvents).foldl resolveFixedStep ([], [])

/-- The fixed events surviving `optimize_day_events`: the scan only runs
when there is more than one fixed event. -/
def dayFixedEvents (fs : List Event) : List Event :=
  if 1 < fs.length then (resolveFixedScan fs).1 else fs

/-- The flexible tasks handed to the solver by `optimize_day_events`: the
partitioned flexible tasks plus the demoted fixed events. -/
def dayFlexibleTasks (fs ts : List Event) : List Event :=
  if 1 < fs.length then ts ++ (resolveFixedScan fs).2 else ts

/-- `optimize_day_events` (scheduler.py) for the default day window.  Only
`RuntimeError` is caught; the error dict returns the unoptimized input
events. -/
def optimize_day_events (events : List Event) (oracle : Oracle) :
    Except PyErr OptOut :=
  if events.isEmpty then .ok ⟨[], none⟩
  else do
    let (fs, ts) ← partitionDayEvents events
    let fixedEvents := dayFixedEvents fs
    let flexibleTasks := dayFlexibleTasks fs ts
    if flexibleTasks.isEmpty then
      .ok ⟨sortByStart fixedEvents, none⟩
    else
      match schedule_day fixedEvents flexibleTasks oracle with
      | .ok evs => .ok ⟨evs, none⟩
      | .error (.runtime msg) => .ok ⟨events, some msg⟩
      | .error e => .error e

/-! ### merge_and_optimize_events and the pipeline handler skeleton -/

/-- Result dict of `merge_and_optimize_events`; an absent "conflicts" key is
the empty list. -/
structure MergeResult where
  events : List Event
  error : Option String
  conflicts : List ConflictRecord
deriving DecidableEq, Repr

/-- Python's case-insensitive substring test `needle.lower() in hay.lower()`. -/
def strContainsCI (hay needle : String) : Bool :=
  decide (needle.toLower.toList <:+: hay.toLower.toList)

/-- The deletion loop of `merge_and_optimize_events`: every delete spec
removes all events whose name contains it case-insensitively. -/
def applyDeletes (events : List Event) (deleteNames : List String) : List Event :=
  deleteNames.foldl (fun evs d => evs.filter (fun e => !(strContainsCI e.name d))) events

/-- `{**existing, **edit}`: the edit dict's keys overlay the existing event.
Key presence is modelled by `Option`; pipeline-produced edit dicts always
carry a name. -/
def overlayEdit (base edit : Event) : Event :=
  { name := edit.name
    type_ := edit.type_ <|> base.type_
    start := edit.start <|> base.start
    end_ := edit.end_ <|> base.end_
    durationMinutes := edit.durationMinutes <|> base.durationMinutes
    earliestStart := edit.earliestStart <|> base.earliestStart
    latestEnd := edit.latestEnd <|> base.latestEnd
    extra := edit.extra.foldl (fun d p => dictInsert p.1 p.2 d) base.extra }

/-- Replace the first event whose name contains the edit's name
(case-insensitively) by the overlaid event; `none` when no event matches. -/
def replaceFirstMatch : List Event → Event → Option (List Event)
  | [], _ => none
  | e :: es, ed =>
    if strContainsCI e.name ed.name then
      some (overlayEdit e ed :: es)
    else
      (replaceFirstMatch es ed).map (e :: ·)

/-- The edit loop of `merge_and_optimize_events`: an unmatched edit is
appended to the new-events list instead. -/
def applyEdits (events : List Event) (edits : List Event) :
    List Event × List Event :=
  edits.foldl
    (fun acc ed =>
      match replaceFirstMatch acc.1 ed with
      | some evs => (evs, acc.2)
      | none => (acc.1, acc.2 ++ [ed]))
    (events, [])

/-- The event list handed to the optimizer by `merge_and_optimize_events`:
existing events after deletes and edits, plus the accepted part of the add
batch (edits without a match are adds). -/
def mergedEventList (existing newEvents : List Event) (deleteNames : List String)
    (editEvents : List Event) : List Event :=
  let base := (applyEdits (applyDeletes existing deleteNames) editEvents).1
  let news := newEvents ++ (applyEdits (applyDeletes existing deleteNames) editEvents).2
  if news.isEmpty then base
  else base ++ (detect_and_resolve_conflicts base news).1

/-- The conflict list attached by `merge_and_optimize_events`: empty when
there are no adds (the source then never calls the conflict detection and
the result has no conflicts key). -/
def mergeConflicts (existing newEvents : List Event) (deleteNames : List String)
    (editEvents : List Event) : List ConflictRecord :=
  let base := (applyEdits (applyDeletes existing deleteNames) editEvents).1
  let news := newEvents ++ (applyEdits (applyDeletes existing deleteNames) editEvents).2
  if news.isEmpty then []
  else (detect_and_resolve_conflicts base news).2

/-- `merge_and_optimize_events` (scheduler.py): deletes, then edits, then
conflict detection on the adds; the accepted adds join the surviving events,
the result is optimized and the conflict list is attached (in the source the
conflicts key is only present in the conflict branch; an absent key and an
empty list are both modelled as `[]`, and the with- and without-error
branches return the same dict shape). -/
def merge_and_optimize_events (existing newEvents : List Event)
    (deleteNames : List String) (editEvents : List Event) (oracle : Oracle) :
    Except PyErr MergeResult := do
  let o ← optimize_day_events (mergedEventList existing newEvents deleteNames editEvents) oracle
  .ok ⟨o.events, o.error, mergeConflicts existing newEvents deleteNames editEvents⟩

/-- The three outcomes of `handle_modify_schedule` (audio_pipeline.py) for
one processed day, in branch order: optimizer error, conflicts, success. -/
inductive HandlerResponse where
  | errorResp (msg : String)
  | conflictResp (conflicts : List ConflictRecord)
  | success
deriving DecidableEq, Repr

/-- What `handle_modify_schedule` does with one day's merge result:
`persisted` is the day schedule written by `save_day_schedule`, `none` when
the handler returns before saving. -/
structure HandlerOut where
  persisted : Option (List Event)
  response : HandlerResponse
deriving DecidableEq, Repr

/-- Persistence skeleton of `handle_modify_schedule` (audio_pipeline.py) for
one day: an optimizer error returns immediately (nothing saved), then a
non-empty conflicts list returns immediately (nothing saved), else the
optimized events are saved.  The calendar sync between the conflict check and
the save only annotates the optimized event objects with external calendar
ids and is out of scope. -/
def handle_modify_day (existing newEvents : List Event) (deleteNames : List String)
    (editEvents : List Event) (oracle : Oracle) : Except PyErr HandlerOut := do
  let m ← merge_and_optimize_events existing newEvents deleteNames editEvents oracle
  match m.error with
  | some msg => .ok ⟨none, .errorResp msg⟩
  | none =>
    if m.conflicts.isEmpty then .ok ⟨some m.events, .success⟩
    else .ok ⟨none, .conflictResp m.conflicts⟩

/-! ### ScheduleManager (schedule_manager.py)

The filesystem is a `Store`: one file state per weekday plus the metadata
file.  A file can be absent (`open` raises FileNotFoundError), present but
not readable (`open`/read raises another OSError such as PermissionError),
present but not parseable (`json.load` raises JSONDecodeError), or good.
Write failures are modelled by the writability flags; a failed write raises
`PyErr.osError`.  `datetime.now()` and the computed current Monday
(`_get_current_week_start`) are explicit parameters `now` and `monday`. -/

/-- The seven weekday identifiers (`DAYS_OF_WEEK`). -/
inductive Day where
  | monday | tuesday | wednesday | thursday | friday | saturday | sunday
deriving DecidableEq, Repr

/-- `DAYS_OF_WEEK` in order. -/
def DAYS_OF_WEEK : List Day :=
  [.monday, .tuesday, .wednesday, .thursday, .friday, .saturday, .sunday]

/-- The `DaySchedule` dataclass. -/
structure DaySchedule where
  day : Day
  events : List Event
  lastUpdated : Option Int
deriving DecidableEq, Repr

/-- `DaySchedule.empty(day)`. -/
def DaySchedule.empty (d : Day) : DaySchedule :=
  ⟨d, [], none⟩

/-- The `WeekMetadata` dataclass; the ISO Monday date is an integer day
number. -/
structure WeekMetadata where
  weekStartDate : Int
  lastReset : Option Int
  lastModified : Option Int
deriving DecidableEq, Repr

/-- State of one persisted JSON file with content `α`. -/
inductive FileState (α : Type) where
  | missing
  | unreadable
  | corrupt
  | good (content : α)
deriving DecidableEq, Repr

/-- The storage directory of a `ScheduleManager`, plus per-file writability
(modelling whether a write raises OSError). -/
structure Store where
  days : Day → FileState DaySchedule
  meta : FileState WeekMetadata
  dayWritable : Day → Bool
  metaWritable : Bool

/-- `_reset_week_metadata`: write fresh metadata for the current week. -/
def reset_week_metadata (s : Store) (now monday : Int) : Except PyErr Store :=
  if s.metaWritable then
    .ok { s with meta := .good ⟨monday, some now, some now⟩ }
  else
    .error .osError

/-- `get_week_metadata`: missing or corrupt metadata is reset and re-read;
other read failures propagate. -/
def get_week_metadata (s : Store) (now monday : Int) :
    Except PyErr (Store × WeekMetadata) :=
  match s.meta with
  | .good m => .ok (s, m)
  | .missing =>
    (reset_week_metadata s now monday).map (fun s1 => (s1, ⟨monday, some now, some now⟩))
  | .corrupt =>
    (reset_week_metadata s now monday).map (fun s1 => (s1, ⟨monday, some now, some now⟩))
  | .unreadable => .error .osError

/-- `_update_week_metadata`: re-read the metadata and stamp `last_modified`. -/
def update_week_metadata (s : Store) (now monday : Int) : Except PyErr Store := do
  let (s1, m) ← get_week_metadata s now monday
  if s1.metaWritable then
    .ok { s1 with meta := .good { m with lastModified := some now } }
  else
    .error .osError

/-- `get_day_schedule` (schedule_manager.py): only FileNotFoundError and
JSONDecodeError fall back to the empty day; any other OSError propagates.
(The invalid-day-name ValueError cannot arise for a `Day` value.) -/
def get_day_schedule (s : Store) (d : Day) : Except PyErr DaySchedule :=
  match s.days d with
  | .good c => .ok c
  | .missing => .ok (DaySchedule.empty d)
  | .corrupt => .ok (DaySchedule.empty d)
  | .unreadable => .error .osError

/-- `save_day_schedule` (schedule_manager.py): stamp `last_updated`, write
the whole day file, then bump the metadata; write failures propagate. -/
def save_day_schedule (s : Store) (sched : DaySchedule) (now monday : Int) :
    Except PyErr Store :=
  if s.dayWritable sched.day then
    let written : DaySchedule := { sched with lastUpdated := some now }
    let s1 : Store :=
      { s with days := fun d => if d = sched.day then .good written else s.days d }
    update_week_metadata s1 now monday
  else
    .error .osError

/-- The loop of `clear_week`: write an empty schedule file for every day, in
`DAYS_OF_WEEK` order. -/
def clearDayFiles : List Day → Store → Except PyErr Store
  | [], s => .ok s
  | d :: ds, s =>
    if s.dayWritable d then
      clearDayFiles ds
        { s with days := fun x => if x = d then .good (DaySchedule.empty d) else s.days x }
    else
      .error .osError

/-- `clear_week` (schedule_manager.py): overwrite all 7 day files with empty
schedules (without stamping `last_updated`), then reset the metadata. -/
def clear_week (s : Store) (now monday : Int) : Except PyErr Store := do
  let s1 ← clearDayFiles DAYS_OF_WEEK s
  reset_week_metadata s1 now monday

/-- `check_and_reset_if_new_week` (schedule_manager.py): compare the stored
week start with the current Monday; on mismatch clear the week and return
true, else return false. -/
def check_and_reset_if_new_week (s : Store) (now monday : Int) :
    Except PyErr (Store × Bool) := do
  let (s1, m) ← get_week_metadata s now monday
  if m.weekStartDate ≠ monday then
    let s2 ← clear_week s1 now monday
    .ok (s2, true)
  else
    .ok (s1, false)

/-! ### ContextManager (context_manager.py)

`datetime.now()` is an explicit integer-seconds parameter `now`. -/

/-- The `ContextState` enum. -/
inductive ContextState where
  | idle
  | awaitingClarification
  | awaitingConflictResolution
deriving DecidableEq, Repr

/-- The mutable fields of the `ContextManager` singleton. -/
structure Ctx where
  state : ContextState
  lastTranscript : Option String
  pendingEvent : Option Event
  recommendation : Option Recommendation
  lastInteractionTime : Option Int
deriving DecidableEq, Repr

/-- `reset`: back to the idle state with no payload. -/
def Ctx.reset : Ctx :=
  ⟨.idle, none, none, none, none⟩

/-- `is_expired`: an unset `last_interaction_time` counts as expired
(`if not self.last_interaction_time`); otherwise expired iff strictly more
than `timeoutSeconds` have elapsed.  The source default is 300. -/
def is_expired (c : Ctx) (now timeoutSeconds : Int) : Bool :=
  match c.lastInteractionTime with
  | none => true
  | some t => timeoutSeconds < now - t

/-- `set_clarification_state`: enter the clarification state, store the
transcript and stamp the interaction time. -/
def set_clarification_state (c : Ctx) (originalTranscript : String) (now : Int) : Ctx :=
  { c with
    state := .awaitingClarification
    lastTranscript := some originalTranscript
    lastInteractionTime := some now }

/-- `set_conflict_state`: enter the conflict-resolution state, store the
pending event and optional recommendation and stamp the interaction time. -/
def set_conflict_state (c : Ctx) (pendingEvent : Event)
    (recommendation : Option Recommendation) (now : Int) : Ctx :=
  { c with
    state := .awaitingConflictResolution
    pendingEvent := some pendingEvent
    recommendation := recommendation
    lastInteractionTime := some now }

/-- The dict returned by `get_context`; the expired branch returns only
`{"state": IDLE}`, i.e. every payload key reads as `None`. -/
structure CtxView where
  state : ContextState
  lastTranscript : Option String
  pendingEvent : Option Event
  recommendation : Option Recommendation
deriving DecidableEq, Repr

/-- The `{"state": IDLE}` dict of the expired branch. -/
def idleView : CtxView :=
  ⟨.idle, none, none, none⟩

/-- `get_context`: an expired context is reset (when not already idle) and
reads as idle; otherwise state and payload are returned.  The TTL is the
source default 300. -/
def get_context (c : Ctx) (now : Int) : Ctx × CtxView :=
  if is_expired c now 300 then
    (if c.state ≠ .idle then Ctx.reset else c, idleView)
  else
    (c, ⟨c.state, c.lastTranscript, c.pendingEvent, c.recommendation⟩)

/-! ## Claims about the DialogueContext (context_manager.py) -/

/-- C8: for every DialogueContext read, if now - lastInteractionTime exceeds
the TTL (default 300 seconds), the context is silently reset to Idle before
the read returns, regardless of which non-Idle state and payload were
stored; in particular any non-Idle state set more than 300 seconds ago reads
back as Idle. -/
theorem c8_ttl_read_resets (c : Ctx) (now t : Int)
    (hlt : c.lastInteractionTime = some t) (hexp : 300 < now - t) :
    (get_context c now).2 = idleView ∧
    (c.state ≠ .idle → (get_context c now).1 = Ctx.reset) ∧
    (∀ c0 u now0, (get_context (set_clarification_state c0 u now0) (now0 + 301)).2
      = idleView) ∧
    (∀ c0 e r now0, (get_context (set_conflict_state c0 e r now0) (now0 + 301)).2
      = idleView) := by
  have hexpired : is_expired c now 300 = true := by
    simp [is_expired, hlt]; omega
  refine ⟨?_, ?_, ?_, ?_⟩
  · simp [get_context, hexpired]
  · intro hni
    simp [get_context, hexpired, hni]
  · intro c0 u now0
    have : is_expired (set_clarification_state c0 u now0) (now0 + 301) 300 = true := by
      simp [is_expired, set_clarification_state]
    simp [get_context, this]
  · intro c0 e r now0
    have : is_expired (set_conflict_state c0 e r now0) (now0 + 301) 300 = true := by
      simp [is_expired, set_conflict_state]
    simp [get_context, this]

/-- Witness for C8 at a concrete expired context. -/
theorem c8_ttl_read_resets_witness :
    (get_context ⟨.awaitingClarification, some "u", none, none, some 0⟩ 301).2 = idleView :=
  (c8_ttl_read_resets ⟨.awaitingClarification, some "u", none, none, some 0⟩ 301 0
    rfl (by decide)).1

/-- Pending event used in the C9 counterexample. -/
def c9PendingEvent : Event :=
  { name := "X", type_ := some "fixed", start := some 540, end_ := some 600 }

/-- Recommendation used in the C9 counterexample. -/
def c9Rec : Recommendation := ⟨600, 660⟩

/-- C9 counterexample: enter AwaitingConflictResolution with a pending event
and recommendation, then enter AwaitingClarification; a non-expired read
still observes the old pending event and recommendation, so the payload of
the previous pending state is NOT erased by setting the new one. -/
theorem c9_counterexample :
    ((get_context
        (set_clarification_state
          (set_conflict_state Ctx.reset c9PendingEvent (some c9Rec) 0)
          "add dentist friday" 10)
        10).2).state = .awaitingClarification ∧
    ((get_context
        (set_clarification_state
          (set_conflict_state Ctx.reset c9PendingEvent (some c9Rec) 0)
          "add dentist friday" 10)
        10).2).pendingEvent = some c9PendingEvent ∧
    ((get_context
        (set_clarification_state
          (set_conflict_state Ctx.reset c9PendingEvent (some c9Rec) 0)
          "add dentist friday" 10)
        10).2).recommendation = some c9Rec := by
  refine ⟨rfl, rfl, rfl⟩

/-- C9 amended: setting a new pending state unconditionally overwrites the
prior state field, so at most one pending STATE exists at a time; but the
setters do not clear the other state's payload fields, so a stale
pendingEvent / recommendation (after entering AwaitingClarification) or a
stale lastTranscript (after entering AwaitingConflictResolution) remains
stored and is returned by a non-expired read. -/
theorem c9_amended (c : Ctx) (u : String) (e : Event) (r : Option Recommendation)
    (now : Int) :
    (set_clarification_state c u now).state = .awaitingClarification ∧
    (set_conflict_state c e r now).state = .awaitingConflictResolution ∧
    (set_clarification_state c u now).pendingEvent = c.pendingEvent ∧
    (set_clarification_state c u now).recommendation = c.recommendation ∧
    (set_conflict_state c e r now).lastTranscript = c.lastTranscript ∧
    (get_context (set_clarification_state c u now) now).2.pendingEvent
      = c.pendingEvent := by
  refine ⟨rfl, rfl, rfl, rfl, rfl, ?_⟩
  simp [get_context, is_expired, set_clarification_state, sub_self]

/-- C10: a DialogueContext whose lastInteractionTime is unset is treated as
expired — `is_expired` returns true for any timeout, and every read returns
the Idle view — so a freshly created (reset) context can never report a
pending state or payload. -/
theorem c10_unset_time_is_expired (c : Ctx) (now : Int)
    (h : c.lastInteractionTime = none) :
    (∀ timeoutSeconds, is_expired c now timeoutSeconds = true) ∧
    (get_context c now).2 = idleView ∧
    Ctx.reset.lastInteractionTime = none ∧
    (∀ n, (get_context Ctx.reset n).2 = idleView) := by
  have hexp : ∀ timeoutSeconds, is_expired c now timeoutSeconds = true := by
    intro ts; simp [is_expired, h]
  refine ⟨hexp, ?_, rfl, ?_⟩
  · by_cases hs : c.state = .idle <;> simp [get_context, hexp 300, hs]
  · intro n
    simp [get_context, is_expired, Ctx.reset]

/-- Witness for C10 at the freshly reset context. -/
theorem c10_unset_time_is_expired_witness :
    (∀ timeoutSeconds, is_expired Ctx.reset 42 timeoutSeconds = true) ∧
    (get_context Ctx.reset 42).2 = idleView :=
  ⟨(c10_unset_time_is_expired Ctx.reset 42 rfl).1,
   (c10_unset_time_is_expired Ctx.reset 42 rfl).2.1⟩

/-! ## Claims about the ScheduleStore (schedule_manager.py) -/

deriving instance DecidableEq for Except

/-- Reduction of the Except monad's bind on a success value. -/
@[simp] theorem except_ok_bind {ε α β : Type} (a : α) (f : α → Except ε β) :
    (Except.ok a : Except ε α) >>= f = f a := rfl

/-- Reduction of the Except monad's bind on an error value. -/
@[simp] theorem except_error_bind {ε α β : Type} (e : ε) (f : α → Except ε β) :
    (Except.error e : Except ε α) >>= f = Except.error e := rfl

/-- The `clear_week` loop on a fully writable store succeeds and empties
exactly the listed day files, leaving everything else unchanged. -/
theorem clearDayFiles_ok (ds : List Day) (s : Store)
    (hw : ∀ d, s.dayWritable d = true) :
    ∃ s2, clearDayFiles ds s = .ok s2 ∧
      (∀ d, d ∈ ds → s2.days d = .good (DaySchedule.empty d)) ∧
      (∀ d, d ∉ ds → s2.days d = s.days d) ∧
      s2.meta = s.meta ∧ s2.dayWritable = s.dayWritable ∧
      s2.metaWritable = s.metaWritable := by
  induction ds generalizing s with
  | nil =>
    exact ⟨s, rfl, by simp, fun _ _ => rfl, rfl, rfl, rfl⟩
  | cons d ds ih =>
    have hstep : clearDayFiles (d :: ds) s =
        clearDayFiles ds
          { s with days := fun x => if x = d then .good (DaySchedule.empty d) else s.days x } := by
      simp [clearDayFiles, hw d]
    obtain ⟨s2, h2, hin, hout, hmeta, hdw, hmw⟩ :=
      ih { s with days := fun x => if x = d then .good (DaySchedule.empty d) else s.days x }
        (by intro x; exact hw x)
    refine ⟨s2, hstep ▸ h2, ?_, ?_, hmeta, hdw, hmw⟩
    · intro x hx
      rcases List.mem_cons.mp hx with hxd | hxs
      · subst hxd
        by_cases hx2 : x ∈ ds
        · exact hin x hx2
        · rw [hout x hx2]; simp
      · exact hin x hxs
    · intro x hx
      have hxd : x ≠ d := fun h => hx (h ▸ List.mem_cons_self d ds)
      have hxs : x ∉ ds := fun h => hx (List.mem_cons_of_mem d h)
      rw [hout x hxs]; simp [hxd]

/-- C6: checkRollover compares the stored weekStartDate to the Monday of the
current date: on mismatch it clears all 7 DaySchedules, issues fresh
WeekMetadata, and returns true; on match it returns false and changes
nothing; hence a second call within the same week is a no-op. -/
theorem c6_rollover (s : Store) (m : WeekMetadata) (now monday : Int)
    (hm : s.meta = .good m)
    (hw : ∀ d, s.dayWritable d = true) (hmw : s.metaWritable = true) :
    (m.weekStartDate = monday →
      check_and_reset_if_new_week s now monday = .ok (s, false)) ∧
    (m.weekStartDate ≠ monday →
      ∃ s2, check_and_reset_if_new_week s now monday = .ok (s2, true) ∧
        (∀ d, s2.days d = .good (DaySchedule.empty d)) ∧
        s2.meta = .good ⟨monday, some now, some now⟩ ∧
        (∀ now2, check_and_reset_if_new_week s2 now2 monday = .ok (s2, false))) := by
  constructor
  · intro heq
    simp [check_and_reset_if_new_week, get_week_metadata, hm, heq]
  · intro hne
    obtain ⟨s1, h1, hin, _, hmeta1, hdw1, hmw1⟩ := clearDayFiles_ok DAYS_OF_WEEK s hw
    have hmw1t : s1.metaWritable = true := by rw [hmw1]; exact hmw
    refine ⟨{ s1 with meta := .good ⟨monday, some now, some now⟩ }, ?_, ?_, rfl, ?_⟩
    · simp [check_and_reset_if_new_week, get_week_metadata, hm, hne, clear_week, h1,
        reset_week_metadata, hmw1t]
    · intro d; exact hin d (by cases d <;> simp [DAYS_OF_WEEK])
    · intro now2
      simp [check_and_reset_if_new_week, get_week_metadata, hmw1t]

/-- A fully readable and writable store whose metadata records week start
`w`, used to witness C6. -/
def c6WitnessStore (w : Int) : Store :=
  ⟨fun d => .good ⟨d, [], none⟩, .good ⟨w, none, none⟩, fun _ => true, true⟩

/-- Witness for C6: a matching week start is a no-op returning false; a
mismatching one clears the 7 days, resets the metadata and returns true. -/
theorem c6_rollover_witness :
    check_and_reset_if_new_week (c6WitnessStore 5) 1000 5 = .ok (c6WitnessStore 5, false) ∧
    ∃ s2, check_and_reset_if_new_week (c6WitnessStore 4) 1000 5 = .ok (s2, true) ∧
      (∀ d, s2.days d = .good (DaySchedule.empty d)) ∧
      s2.meta = .good ⟨5, some 1000, some 1000⟩ ∧
      (∀ now2, check_and_reset_if_new_week s2 now2 5 = .ok (s2, false)) :=
  ⟨(c6_rollover (c6WitnessStore 5) ⟨5, none, none⟩ 1000 5 rfl (fun _ => rfl) rfl).1 rfl,
   (c6_rollover (c6WitnessStore 4) ⟨4, none, none⟩ 1000 5 rfl (fun _ => rfl) rfl).2
     (by decide)⟩

/-- The store of the C7 counterexample: the day files exist but reading them
raises a non-FileNotFoundError OSError (e.g. permission denied). -/
def c7UnreadableStore : Store :=
  ⟨fun _ => .unreadable, .good ⟨0, none, none⟩, fun _ => true, true⟩

/-- C7 counterexample: a day file that exists but cannot be read (an OSError
other than FileNotFoundError, such as PermissionError) propagates out of
`get_day_schedule` instead of falling back to the empty DaySchedule — only
FileNotFoundError and JSONDecodeError are caught. -/
theorem c7_counterexample :
    get_day_schedule c7UnreadableStore .monday = .error .osError ∧
    get_day_schedule c7UnreadableStore .monday ≠
      .ok (DaySchedule.empty .monday) := by
  exact ⟨rfl, fun h => by simp [get_day_schedule, c7UnreadableStore] at h⟩

/-- C7 amended: a read of a day whose file is missing or corrupt (not
parseable) returns the empty DaySchedule instead of raising, but a read
failing with any other I/O error propagates, as do write failures. -/
theorem c7_amended (s : Store) (d : Day) (sched : DaySchedule) (now monday : Int) :
    (s.days d = .missing → get_day_schedule s d = .ok (DaySchedule.empty d)) ∧
    (s.days d = .corrupt → get_day_schedule s d = .ok (DaySchedule.empty d)) ∧
    (s.days d = .unreadable → get_day_schedule s d = .error .osError) ∧
    (s.dayWritable sched.day = false →
      save_day_schedule s sched now monday = .error .osError) := by
  refine ⟨?_, ?_, ?_, ?_⟩ <;> intro h <;> simp [get_day_schedule, save_day_schedule, h]

/-- Witness for C7 (amended): concrete stores exercising each branch. -/
theorem c7_amended_witness :
    get_day_schedule ⟨fun _ => .missing, .good ⟨0, none, none⟩, fun _ => true, true⟩
        .monday = .ok (DaySchedule.empty .monday) ∧
    get_day_schedule ⟨fun _ => .corrupt, .good ⟨0, none, none⟩, fun _ => true, true⟩
        .monday = .ok (DaySchedule.empty .monday) ∧
    get_day_schedule ⟨fun _ => .unreadable, .good ⟨0, none, none⟩, fun _ => true, true⟩
        .tuesday = .error .osError ∧
    save_day_schedule ⟨fun _ => .missing, .good ⟨0, none, none⟩, fun _ => false, true⟩
        ⟨.monday, [], none⟩ 0 0 = .error .osError :=
  ⟨(c7_amended ⟨fun _ => .missing, .good ⟨0, none, none⟩, fun _ => true, true⟩
      .monday ⟨.monday, [], none⟩ 0 0).1 rfl,
   (c7_amended ⟨fun _ => .corrupt, .good ⟨0, none, none⟩, fun _ => true, true⟩
      .monday ⟨.monday, [], none⟩ 0 0).2.1 rfl,
   (c7_amended ⟨fun _ => .unreadable, .good ⟨0, none, none⟩, fun _ => true, true⟩
      .tuesday ⟨.monday, [], none⟩ 0 0).2.2.1 rfl,
   (c7_amended ⟨fun _ => .missing, .good ⟨0, none, none⟩, fun _ => false, true⟩
      .monday ⟨.monday, [], none⟩ 0 0).2.2.2 rfl⟩

/-! ## Claims about detect_and_resolve_conflicts (scheduler.py) -/

/-- C2 failing input, existing fixed event 09:00-10:00. -/
def c2ExistingFixed : Event :=
  { name := "Gym", type_ := some "fixed", start := some 540, end_ := some 600 }

/-- C2 failing input, previously placed flexible task 11:40-12:10. -/
def c2ExistingFlex : Event :=
  { name := "Reading", type_ := some "flexible", start := some 700, end_ := some 730 }

/-- C2 failing input, first add: a fixed event conflicting with the fixed
tentative item (records a ConflictRecord). -/
def c2AddConflicting : Event :=
  { name := "Standup", type_ := some "fixed", start := some 540, end_ := some 600 }

/-- C2 failing input, second add: a fixed event whose only overlap is the
flexible tentative item. -/
def c2AddDisplacer : Event :=
  { name := "Review", type_ := some "fixed", start := some 700, end_ := some 760 }

/-- C2: the source guards the accept-after-displacement step with
`if not conflicts:` on the batch-global conflict list (instead of the
per-event `resolved_conflicts` it computes and never reads).  With an
earlier conflict in the same batch, a fixed add whose overlaps are all
flexible evicts and re-queues those flexible items but is itself silently
dropped: it is neither accepted nor reported as a conflict.  The same add
alone in the batch is accepted, as the claim (and the source's own comment
"If all conflicts were flexible and re-queued, allow the fixed event
through") describes. -/
theorem c2_global_conflicts_guard_drops_fixed_add :
    detect_and_resolve_conflicts [c2ExistingFixed, c2ExistingFlex]
        [c2AddConflicting, c2AddDisplacer] =
      ([c2ExistingFlex], [mkConflictRecord c2AddConflicting c2ExistingFixed]) ∧
    c2AddDisplacer ∉
      (detect_and_resolve_conflicts [c2ExistingFixed, c2ExistingFlex]
        [c2AddConflicting, c2AddDisplacer]).1 ∧
    (detectRun [c2ExistingFixed, c2ExistingFlex]
        [c2AddConflicting, c2AddDisplacer]).tentative = [c2ExistingFixed] ∧
    detect_and_resolve_conflicts [c2ExistingFixed, c2ExistingFlex]
        [c2AddDisplacer] =
      ([c2ExistingFlex, c2AddDisplacer], []) := by
  decide

/-- For a fixed new event, the inner conflict loop re-queues exactly the
flexible overlapping items and records a ConflictRecord for every other
overlapping item, in order. -/
theorem processConflict_foldl_spec (e : Event) (he : e.type_ = some "fixed")
    (cur : List Event) (st : DetectState) :
    (cur.foldl (processConflict e) st).eventsToAdd
      = st.eventsToAdd ++ cur.filter (fun t => t.type_ == some "flexible") ∧
    (cur.foldl (processConflict e) st).conflicts
      = st.conflicts ++
          (cur.filter (fun t => !(t.type_ == some "flexible"))).map
            (mkConflictRecord e) := by
  induction cur generalizing st with
  | nil => simp
  | cons t ts ih =>
    rw [List.foldl_cons]
    rcases hts : (t.type_ == some "flexible") with _ | _
    · have hpc : processConflict e st t =
          { st with conflicts := st.conflicts ++ [mkConflictRecord e t] } := by
        simp [processConflict, he, hts]
      rw [hpc]
      obtain ⟨h1, h2⟩ := ih { st with conflicts := st.conflicts ++ [mkConflictRecord e t] }
      refine ⟨?_, ?_⟩
      · rw [h1]; simp [List.filter_cons, hts]
      · rw [h2]; simp [List.filter_cons, hts]
    · have hpc : processConflict e st t =
          { st with
            tentative := st.tentative.erase t
            eventsToAdd := st.eventsToAdd ++ [t] } := by
        simp [processConflict, he, hts]
      rw [hpc]
      obtain ⟨h1, h2⟩ := ih
        { st with tentative := st.tentative.erase t, eventsToAdd := st.eventsToAdd ++ [t] }
      refine ⟨?_, ?_⟩
      · rw [h1]; simp [List.filter_cons, hts]
      · rw [h2]; simp [List.filter_cons, hts]

/-- The inner conflict loop only appends to the conflict list. -/
theorem processConflict_foldl_conflicts_mono (e : Event) (cur : List Event)
    (st : DetectState) :
    ∃ δ, (cur.foldl (processConflict e) st).conflicts = st.conflicts ++ δ := by
  induction cur generalizing st with
  | nil => exact ⟨[], by simp⟩
  | cons t ts ih =>
    rw [List.foldl_cons]
    rcases h : (e.type_ == some "fixed" && t.type_ == some "flexible") with _ | _
    · have hpc : processConflict e st t =
          { st with conflicts := st.conflicts ++ [mkConflictRecord e t] } := by
        simp [processConflict, h]
      rw [hpc]
      obtain ⟨δ, hδ⟩ := ih { st with conflicts := st.conflicts ++ [mkConflictRecord e t] }
      exact ⟨mkConflictRecord e t :: δ, by rw [hδ]; simp⟩
    · have hpc : processConflict e st t =
          { st with
            tentative := st.tentative.erase t
            eventsToAdd := st.eventsToAdd ++ [t] } := by
        simp [processConflict, h]
      rw [hpc]
      exact ih _

/-- One step of the add-batch loop only appends to the conflict list. -/
theorem detectStep_conflicts_mono (st : DetectState) (e : Event) :
    ∃ δ, (detectStep st e).conflicts = st.conflicts ++ δ := by
  unfold detectStep
  by_cases h1 : (e.type_ == some "flexible") = true
  · rw [if_pos h1]; exact ⟨[], by simp⟩
  · rw [if_neg h1]
    by_cases h2 : (find_conflicts e st.tentative).isEmpty = true
    · rw [if_pos h2]; exact ⟨[], by simp⟩
    · rw [if_neg h2]
      obtain ⟨δ, hδ⟩ :=
        processConflict_foldl_conflicts_mono e (find_conflicts e st.tentative) st
      by_cases h3 :
          ((find_conflicts e st.tentative).foldl (processConflict e) st).conflicts.isEmpty
            = true
      · rw [if_pos h3]; exact ⟨δ, by simpa using hδ⟩
      · rw [if_neg h3]; exact ⟨δ, hδ⟩

/-- The add-batch loop only appends to the conflict list. -/
theorem detect_foldl_conflicts_mono (l : List Event) (st : DetectState) :
    ∃ δ, (l.foldl detectStep st).conflicts = st.conflicts ++ δ := by
  induction l generalizing st with
  | nil => exact ⟨[], by simp⟩
  | cons e es ih =>
    rw [List.foldl_cons]
    obtain ⟨δ1, h1⟩ := detectStep_conflicts_mono st e
    obtain ⟨δ2, h2⟩ := ih (detectStep st e)
    exact ⟨δ1 ++ δ2, by rw [h2, h1, List.append_assoc]⟩

/-- C1: for every add batch merged against a day's tentative set, when a new
Fixed event overlaps a tentative item that is itself Fixed, a ConflictRecord
is emitted whose recommendation has start = existingEvent.end and
end = start + duration(newEvent), and the new Fixed event is not added to
the accepted set at its merge step (everything newly accepted at that step
is a re-queued Flexible item), hence not to the day. -/
theorem c1_fixed_vs_fixed_reports_conflict (existing newEvents : List Event)
    (i : ℕ) (hi : i < newEvents.length) (e : Event) (hei : newEvents[i] = e)
    (hfix : e.type_ = some "fixed") (t : Event)
    (ht : t ∈ (detectRun existing (newEvents.take i)).tentative)
    (htf : t.type_ = some "fixed") (hov : check_time_overlap e t = true) :
    (∃ r ∈ (detect_and_resolve_conflicts existing newEvents).2,
        r.newEvent = e ∧ r.existingEvent = t ∧
        ∃ tEnd eStart eEnd, t.end_ = some tEnd ∧ e.start = some eStart ∧
          e.end_ = some eEnd ∧
          r.recommendation = some ⟨tEnd, tEnd + (eEnd - eStart)⟩) ∧
    (∀ x ∈ (detectRun existing (newEvents.take (i + 1))).eventsToAdd,
        x ∈ (detectRun existing (newEvents.take i)).eventsToAdd ∨
          x.type_ = some "flexible") ∧
    (e ∉ (detectRun existing (newEvents.take i)).eventsToAdd →
      e ∉ (detectRun existing (newEvents.take (i + 1))).eventsToAdd) := by
  have hsome : newEvents[i]? = some e := by
    rw [List.getElem?_eq_getElem hi, hei]
  have hsplit : detectRun existing (newEvents.take (i + 1))
      = detectStep (detectRun existing (newEvents.take i)) e := by
    unfold detectRun
    rw [List.take_succ, hsome]
    simp [List.foldl_append]
  have hfull : detectRun existing newEvents
      = (newEvents.drop (i + 1)).foldl detectStep
          (detectRun existing (newEvents.take (i + 1))) := by
    unfold detectRun
    conv_lhs => rw [← List.take_append_drop (i + 1) newEvents]
    rw [List.foldl_append]
  have hnotflex : (e.type_ == some "flexible") = false := by simp [hfix]
  have htt : (t.type_ == some "flexible") = false := by simp [htf]
  have hcurmem : t ∈ find_conflicts e (detectRun existing (newEvents.take i)).tentative :=
    List.mem_filter.mpr ⟨ht, by simp [hov]⟩
  have hcurne :
      (find_conflicts e (detectRun existing (newEvents.take i)).tentative).isEmpty
        = false := by
    cases hq :
        (find_conflicts e (detectRun existing (newEvents.take i)).tentative).isEmpty
    · rfl
    · rw [List.isEmpty_iff] at hq
      exact absurd (hq ▸ hcurmem) (List.not_mem_nil t)
  obtain ⟨hadd1, hconf1⟩ := processConflict_foldl_spec e hfix
    (find_conflicts e (detectRun existing (newEvents.take i)).tentative)
    (detectRun existing (newEvents.take i))
  have hmkmem : mkConflictRecord e t ∈
      ((find_conflicts e (detectRun existing (newEvents.take i)).tentative).foldl
        (processConflict e) (detectRun existing (newEvents.take i))).conflicts := by
    rw [hconf1]
    refine List.mem_append_right _ (List.mem_map.mpr ⟨t, ?_, rfl⟩)
    exact List.mem_filter.mpr ⟨hcurmem, by simp [htt]⟩
  have hconfne :
      ((find_conflicts e (detectRun existing (newEvents.take i)).tentative).foldl
        (processConflict e) (detectRun existing (newEvents.take i))).conflicts.isEmpty
        = false := by
    cases hq :
        ((find_conflicts e (detectRun existing (newEvents.take i)).tentative).foldl
          (processConflict e) (detectRun existing (newEvents.take i))).conflicts.isEmpty
    · rfl
    · rw [List.isEmpty_iff] at hq
      exact absurd (hq ▸ hmkmem) (List.not_mem_nil _)
  have hstep_eq : detectStep (detectRun existing (newEvents.take i)) e
      = (find_conflicts e (detectRun existing (newEvents.take i)).tentative).foldl
          (processConflict e) (detectRun existing (newEvents.take i)) := by
    unfold detectStep
    rw [hnotflex]
    simp only [Bool.false_eq_true, if_false, hcurne, hconfne]
  have hsecond : ∀ x ∈ (detectRun existing (newEvents.take (i + 1))).eventsToAdd,
      x ∈ (detectRun existing (newEvents.take i)).eventsToAdd ∨
        x.type_ = some "flexible" := by
    intro x hx
    rw [hsplit, hstep_eq, hadd1] at hx
    rcases List.mem_append.mp hx with h | h
    · exact Or.inl h
    · exact Or.inr (by simpa using (List.mem_filter.mp h).2)
  refine ⟨?_, hsecond, ?_⟩
  · obtain ⟨δ, hδ⟩ := detect_foldl_conflicts_mono (newEvents.drop (i + 1))
      (detectRun existing (newEvents.take (i + 1)))
    have hmem : mkConflictRecord e t ∈ (detectRun existing newEvents).conflicts := by
      rw [hfull, hδ, hsplit, hstep_eq]
      exact List.mem_append_left _ hmkmem
    rcases hts : t.end_ with _ | tEnd
    · rw [check_time_overlap] at hov
      rcases e.start with _ | es <;> rcases e.end_ with _ | ee <;>
        rcases t.start with _ | ts2 <;> simp [hts] at hov
    rcases hes : e.start with _ | eStart
    · rw [check_time_overlap] at hov
      rcases e.end_ with _ | ee <;> rcases t.start with _ | ts2 <;>
        simp [hes] at hov
    rcases hee : e.end_ with _ | eEnd
    · rw [check_time_overlap] at hov
      rcases t.start with _ | ts2 <;> simp [hes, hee] at hov
    refine ⟨mkConflictRecord e t, hmem, rfl, rfl, tEnd, eStart, eEnd, rfl, rfl, rfl, ?_⟩
    simp [mkConflictRecord, conflict_recommendation, hts, hes, hee]
  · intro hnotin hin
    rcases hsecond e hin with h | h
    · exact hnotin h
    · rw [hfix] at h
      simp at h

/-- Existing fixed event used to witness C1. -/
def c1Existing : Event :=
  { name := "Lecture", type_ := some "fixed", start := some 540, end_ := some 600 }

/-- New fixed event (overlapping the existing one) used to witness C1. -/
def c1NewFixed : Event :=
  { name := "Standup", type_ := some "fixed", start := some 570, end_ := some 630 }

/-- Witness for C1: adding a fixed 09:30-10:30 event over a fixed 09:00-10:00
one records the conflict with recommendation 10:00-11:00 and does not accept
the new event. -/
theorem c1_fixed_vs_fixed_reports_conflict_witness :
    (∃ r ∈ (detect_and_resolve_conflicts [c1Existing] [c1NewFixed]).2,
        r.newEvent = c1NewFixed ∧ r.existingEvent = c1Existing ∧
        ∃ tEnd eStart eEnd, c1Existing.end_ = some tEnd ∧
          c1NewFixed.start = some eStart ∧ c1NewFixed.end_ = some eEnd ∧
          r.recommendation = some ⟨tEnd, tEnd + (eEnd - eStart)⟩) ∧
    c1NewFixed ∉ (detectRun [c1Existing] ([c1NewFixed].take (0 + 1))).eventsToAdd := by
  have H := c1_fixed_vs_fixed_reports_conflict [c1Existing] [c1NewFixed] 0 (by decide)
    c1NewFixed rfl rfl c1Existing (by decide) rfl (by decide)
  exact ⟨H.1, H.2.2 (by decide)⟩

/-! ## Lemmas about the optimizer embedding -/

/-- The sort used by scheduler.py is a permutation. -/
theorem sortByStart_perm (l : List Event) : List.Perm (sortByStart l) l :=
  List.perm_insertionSort startLe l

/-- Membership is preserved by the sort. -/
theorem mem_sortByStart {l : List Event} {x : Event} :
    x ∈ sortByStart l ↔ x ∈ l :=
  List.mem_insertionSort startLe

/-- The sort output is sorted by start. -/
theorem sorted_sortByStart (l : List Event) :
    List.Sorted startLe (sortByStart l) :=
  List.sorted_insertionSort startLe l

/-- Inversion of the fixed-branch transformation: success implies both
timestamps were present and the result only normalizes the type. -/
theorem toFixedEvent_ok {a fa : Event} (h : toFixedEvent a = .ok fa) :
    fa = { a with type_ := some "fixed" } ∧ a.start.isSome ∧ a.end_.isSome := by
  unfold toFixedEvent at h
  rcases hs : a.start with _ | s <;> rcases hf : a.end_ with _ | f <;>
    simp only [hs, hf] at h
  · cases h
  · cases h
  · cases h
  · exact ⟨(Except.ok.inj h).symm, by simp, by simp⟩

/-- Every input event of the partition loop lands in exactly the branch its
type selects, with the corresponding transformation. -/
theorem partitionDayEvents_cover {l : List Event} {fs ts : List Event}
    (h : partitionDayEvents l = .ok (fs, ts)) :
    ∀ e ∈ l,
      (e.type_ = some "flexible" ∧ toFlexibleTask e ∈ ts) ∨
      (e.type_ ≠ some "flexible" ∧ { e with type_ := some "fixed" } ∈ fs) := by
  induction l generalizing fs ts with
  | nil => intro e he; cases he
  | cons a l ih =>
    intro e he
    by_cases ha : (a.type_ == some "flexible") = true
    · rw [partitionDayEvents, if_pos ha] at h
      rcases hrec : partitionDayEvents l with _ | ⟨fs2, ts2⟩
      · rw [hrec] at h; cases h
      · rw [hrec] at h
        simp only [except_ok_bind] at h
        cases h
        rcases List.mem_cons.mp he with rfl | hel
        · exact Or.inl ⟨by simpa using ha, List.mem_cons_self _ _⟩
        · rcases ih hrec e hel with ⟨h1, h2⟩ | ⟨h1, h2⟩
          · exact Or.inl ⟨h1, List.mem_cons_of_mem _ h2⟩
          · exact Or.inr ⟨h1, h2⟩
    · rw [partitionDayEvents, if_neg ha] at h
      rcases hfx : toFixedEvent a with _ | fa
      · rw [hfx] at h; cases h
      · rw [hfx] at h
        simp only [except_ok_bind] at h
        rcases hrec : partitionDayEvents l with _ | ⟨fs2, ts2⟩
        · rw [hrec] at h; cases h
        · rw [hrec] at h
          simp only [except_ok_bind] at h
          cases h
          have hfa : fa = { a with type_ := some "fixed" } := (toFixedEvent_ok hfx).1
          rcases List.mem_cons.mp he with rfl | hel
          · exact Or.inr ⟨by simpa using ha, by rw [← hfa]; exact List.mem_cons_self _ _⟩
          · rcases ih hrec e hel with ⟨h1, h2⟩ | ⟨h1, h2⟩
            · exact Or.inl ⟨h1, h2⟩
            · exact Or.inr ⟨h1, List.mem_cons_of_mem _ h2⟩

/-- Every partitioned fixed event originates from an input event via the
fixed-branch transformation. -/
theorem partitionDayEvents_fixed_src {l : List Event} {fs ts : List Event}
    (h : partitionDayEvents l = .ok (fs, ts)) :
    ∀ f ∈ fs, ∃ e ∈ l, toFixedEvent e = .ok f := by
  induction l generalizing fs ts with
  | nil =>
    cases h
    intro f hf; cases hf
  | cons a l ih =>
    by_cases ha : (a.type_ == some "flexible") = true
    · rw [partitionDayEvents, if_pos ha] at h
      rcases hrec : partitionDayEvents l with _ | ⟨fs2, ts2⟩
      · rw [hrec] at h; cases h
      · rw [hrec] at h
        simp only [except_ok_bind] at h
        cases h
        intro f hf
        obtain ⟨e, he, hfe⟩ := ih hrec f hf
        exact ⟨e, List.mem_cons_of_mem _ he, hfe⟩
    · rw [partitionDayEvents, if_neg ha] at h
      rcases hfx : toFixedEvent a with _ | fa
      · rw [hfx] at h; cases h
      · rw [hfx] at h
        simp only [except_ok_bind] at h
        rcases hrec : partitionDayEvents l with _ | ⟨fs2, ts2⟩
        · rw [hrec] at h; cases h
        · rw [hrec] at h
          simp only [except_ok_bind] at h
          cases h
          intro f hf
          rcases List.mem_cons.mp hf with rfl | hf2
          · exact ⟨a, List.mem_cons_self _ _, hfx⟩
          · obtain ⟨e, he, hfe⟩ := ih hrec f hf2
            exact ⟨e, List.mem_cons_of_mem _ he, hfe⟩

/-- Every partitioned flexible task originates from a flexible input event. -/
theorem partitionDayEvents_task_src {l : List Event} {fs ts : List Event}
    (h : partitionDayEvents l = .ok (fs, ts)) :
    ∀ t ∈ ts, ∃ e ∈ l, e.type_ = some "flexible" ∧ t = toFlexibleTask e := by
  induction l generalizing fs ts with
  | nil =>
    cases h
    intro t ht; cases ht
  | cons a l ih =>
    by_cases ha : (a.type_ == some "flexible") = true
    · rw [partitionDayEvents, if_pos ha] at h
      rcases hrec : partitionDayEvents l with _ | ⟨fs2, ts2⟩
      · rw [hrec] at h; cases h
      · rw [hrec] at h
        simp only [except_ok_bind] at h
        cases h
        intro t ht
        rcases List.mem_cons.mp ht with rfl | ht2
        · exact ⟨a, List.mem_cons_self _ _, by simpa using ha, rfl⟩
        · obtain ⟨e, he, hfe, hte⟩ := ih hrec t ht2
          exact ⟨e, List.mem_cons_of_mem _ he, hfe, hte⟩
    · rw [partitionDayEvents, if_neg ha] at h
      rcases hfx : toFixedEvent a with _ | fa
      · rw [hfx] at h; cases h
      · rw [hfx] at h
        simp only [except_ok_bind] at h
        rcases hrec : partitionDayEvents l with _ | ⟨fs2, ts2⟩
        · rw [hrec] at h; cases h
        · rw [hrec] at h
          simp only [except_ok_bind] at h
          cases h
          intro t ht
          obtain ⟨e, he, hfe, hte⟩ := ih hrec t ht
          exact ⟨e, List.mem_cons_of_mem _ he, hfe, hte⟩

/-- The partition preserves the multiset of event names. -/
theorem partitionDayEvents_names {l : List Event} {fs ts : List Event}
    (h : partitionDayEvents l = .ok (fs, ts)) :
    List.Perm (fs.map Event.name ++ ts.map Event.name) (l.map Event.name) := by
  induction l generalizing fs ts with
  | nil => cases h; simp
  | cons a l ih =>
    by_cases ha : (a.type_ == some "flexible") = true
    · rw [partitionDayEvents, if_pos ha] at h
      rcases hrec : partitionDayEvents l with _ | ⟨fs2, ts2⟩
      · rw [hrec] at h; cases h
      · rw [hrec] at h
        simp only [except_ok_bind] at h
        cases h
        simp only [List.map_cons]
        refine List.Perm.trans ?_ ((ih hrec).cons a.name)
        exact List.perm_middle
    · rw [partitionDayEvents, if_neg ha] at h
      rcases hfx : toFixedEvent a with _ | fa
      · rw [hfx] at h; cases h
      · rw [hfx] at h
        simp only [except_ok_bind] at h
        rcases hrec : partitionDayEvents l with _ | ⟨fs2, ts2⟩
        · rw [hrec] at h; cases h
        · rw [hrec] at h
          simp only [except_ok_bind] at h
          cases h
          have hfa := (toFixedEvent_ok hfx).1
          simp only [List.map_cons]
          have hname : fa.name = a.name := by rw [hfa]
          rw [List.cons_append, hname]
          exact (ih hrec).cons a.name

/-- The fixed/fixed scan only appends to both output lists. -/
theorem resolveFixedStep_foldl_mono (l : List Event) (acc : List Event × List Event) :
    ∃ δ1 δ2, (l.foldl resolveFixedStep acc).1 = acc.1 ++ δ1 ∧
      (l.foldl resolveFixedStep acc).2 = acc.2 ++ δ2 := by
  induction l generalizing acc with
  | nil => exact ⟨[], [], by simp, by simp⟩
  | cons a l ih =>
    rw [List.foldl_cons]
    obtain ⟨δ1, δ2, h1, h2⟩ := ih (resolveFixedStep acc a)
    unfold resolveFixedStep at h1 h2 ⊢
    by_cases hc : (find_conflicts a acc.1).isEmpty = true
    · rw [if_pos hc] at h1 h2 ⊢
      exact ⟨a :: δ1, δ2, by simpa using h1, by simpa using h2⟩
    · rw [if_neg hc] at h1 h2 ⊢
      exact ⟨δ1, demotedTask a :: δ2, by simpa using h1, by simpa using h2⟩

/-- Every event scanned by the fixed/fixed scan is either kept or demoted. -/
theorem resolveFixedStep_foldl_total (l : List Event) (acc : List Event × List Event) :
    ∀ e ∈ l, e ∈ (l.foldl resolveFixedStep acc).1 ∨
      demotedTask e ∈ (l.foldl resolveFixedStep acc).2 := by
  induction l generalizing acc with
  | nil => intro e he; cases he
  | cons a l ih =>
    intro e he
    rw [List.foldl_cons]
    rcases List.mem_cons.mp he with rfl | hel
    · obtain ⟨δ1, δ2, h1, h2⟩ := resolveFixedStep_foldl_mono l (resolveFixedStep acc e)
      unfold resolveFixedStep at h1 h2 ⊢
      by_cases hc : (find_conflicts e acc.1).isEmpty = true
      · rw [if_pos hc] at h1 h2 ⊢
        left; rw [h1]; simp
      · rw [if_neg hc] at h1 h2 ⊢
        right; rw [h2]; simp
    · exact ih (resolveFixedStep acc a) e hel

/-- Origins of the two outputs of the fixed/fixed scan fold. -/
theorem resolveFixedStep_foldl_src (l : List Event) (acc : List Event × List Event) :
    (∀ x ∈ (l.foldl resolveFixedStep acc).1, x ∈ acc.1 ∨ x ∈ l) ∧
    (∀ y ∈ (l.foldl resolveFixedStep acc).2,
      y ∈ acc.2 ∨ ∃ e ∈ l, y = demotedTask e) := by
  induction l generalizing acc with
  | nil =>
    exact ⟨fun x hx => Or.inl hx, fun y hy => Or.inl hy⟩
  | cons a l ih =>
    rw [List.foldl_cons]
    obtain ⟨ih1, ih2⟩ := ih (resolveFixedStep acc a)
    constructor
    · intro x hx
      rcases ih1 x hx with hx1 | hx1
      · unfold resolveFixedStep at hx1
        by_cases hc : (find_conflicts a acc.1).isEmpty = true
        · rw [if_pos hc] at hx1
          rcases List.mem_append.mp hx1 with h | h
          · exact Or.inl h
          · exact Or.inr (List.mem_cons.mpr (Or.inl (by simpa using h)))
        · rw [if_neg hc] at hx1
          exact Or.inl hx1
      · exact Or.inr (List.mem_cons_of_mem _ hx1)
    · intro y hy
      rcases ih2 y hy with hy1 | ⟨e, he, hye⟩
      · unfold resolveFixedStep at hy1
        by_cases hc : (find_conflicts a acc.1).isEmpty = true
        · rw [if_pos hc] at hy1
          exact Or.inl hy1
        · rw [if_neg hc] at hy1
          rcases List.mem_append.mp hy1 with h | h
          · exact Or.inl h
          · exact Or.inr ⟨a, List.mem_cons_self _ _, by simpa using h⟩
      · exact Or.inr ⟨e, List.mem_cons_of_mem _ he, hye⟩

/-- Demotion keeps the event's name. -/
@[simp] theorem demotedTask_name (e : Event) : (demotedTask e).name = e.name := rfl

/-- The fixed/fixed scan fold preserves the multiset of names. -/
theorem resolveFixedStep_foldl_names (l : List Event) (acc : List Event × List Event) :
    ((l.foldl resolveFixedStep acc).1.map Event.name : Multiset String)
      + ((l.foldl resolveFixedStep acc).2.map Event.name : Multiset String)
    = (acc.1.map Event.name : Multiset String)
      + (acc.2.map Event.name : Multiset String)
      + (l.map Event.name : Multiset String) := by
  induction l generalizing acc with
  | nil => simp
  | cons a l ih =>
    rw [List.foldl_cons]
    rw [ih (resolveFixedStep acc a)]
    unfold resolveFixedStep
    by_cases hc : (find_conflicts a acc.1).isEmpty = true
    · rw [if_pos hc]
      simp only [List.map_append, List.map_cons, List.map_nil,
        ← Multiset.coe_add, ← Multiset.cons_coe, ← Multiset.singleton_add,
        Multiset.coe_singleton, Multiset.coe_nil, demotedTask_name]
      abel
    · rw [if_neg hc]
      simp only [List.map_append, List.map_cons, List.map_nil,
        ← Multiset.coe_add, ← Multiset.cons_coe, ← Multiset.singleton_add,
        Multiset.coe_singleton, Multiset.coe_nil, demotedTask_name]
      abel

/-- Every partitioned fixed event is either kept by `optimize_day_events` or
demoted into the task list. -/
theorem dayFixedEvents_total (fs ts : List Event) :
    ∀ e ∈ fs, e ∈ dayFixedEvents fs ∨ demotedTask e ∈ dayFlexibleTasks fs ts := by
  intro e he
  unfold dayFixedEvents dayFlexibleTasks
  by_cases hl : 1 < fs.length
  · rw [if_pos hl, if_pos hl]
    have hsorted : e ∈ sortByStart fs := mem_sortByStart.mpr he
    rcases resolveFixedStep_foldl_total (sortByStart fs) ([], []) e hsorted with h | h
    · exact Or.inl h
    · exact Or.inr (List.mem_append_right _ h)
  · rw [if_neg hl, if_neg hl]
    exact Or.inl he

/-- Kept fixed events come from the partitioned fixed list. -/
theorem dayFixedEvents_src (fs : List Event) :
    ∀ x ∈ dayFixedEvents fs, x ∈ fs := by
  intro x hx
  unfold dayFixedEvents at hx
  by_cases hl : 1 < fs.length
  · rw [if_pos hl] at hx
    rcases (resolveFixedStep_foldl_src (sortByStart fs) ([], [])).1 x hx with h | h
    · cases h
    · exact mem_sortByStart.mp h
  · rw [if_neg hl] at hx
    exact hx

/-- Solver tasks are partitioned flexible tasks or demoted fixed events. -/
theorem dayFlexibleTasks_src (fs ts : List Event) :
    ∀ y ∈ dayFlexibleTasks fs ts, y ∈ ts ∨ ∃ e ∈ fs, y = demotedTask e := by
  intro y hy
  unfold dayFlexibleTasks at hy
  by_cases hl : 1 < fs.length
  · rw [if_pos hl] at hy
    rcases List.mem_append.mp hy with h | h
    · exact Or.inl h
    · rcases (resolveFixedStep_foldl_src (sortByStart fs) ([], [])).2 y h with h2 | ⟨e, he, hye⟩
      · cases h2
      · exact Or.inr ⟨e, mem_sortByStart.mp he, hye⟩
  · rw [if_neg hl] at hy
    exact Or.inl hy

/-- The optimizer's fixed/flexible split preserves the multiset of names. -/
theorem dayEvents_names (fs ts : List Event) :
    ((dayFixedEvents fs).map Event.name : Multiset String)
      + ((dayFlexibleTasks fs ts).map Event.name : Multiset String)
    = (fs.map Event.name : Multiset String) + (ts.map Event.name : Multiset String) := by
  unfold dayFixedEvents dayFlexibleTasks
  by_cases hl : 1 < fs.length
  · rw [if_pos hl, if_pos hl]
    have hfold := resolveFixedStep_foldl_names (sortByStart fs) ([], [])
    simp only [List.map_nil, Multiset.coe_nil, zero_add] at hfold
    have hperm : ((sortByStart fs).map Event.name : Multiset String)
        = (fs.map Event.name : Multiset String) :=
      Multiset.coe_eq_coe.mpr ((sortByStart_perm fs).map Event.name)
    simp only [List.map_append, ← Multiset.coe_add]
    unfold resolveFixedScan
    rw [← hperm, ← hfold]
    abel
  · rw [if_neg hl, if_neg hl]

/-- Inserting a fresh key appends the binding. -/
theorem dictInsert_of_not_mem {α : Type} {d : List (String × α)} {k : String} (v : α)
    (h : k ∉ d.map Prod.fst) : dictInsert k v d = d ++ [(k, v)] := by
  have hany : (d.any (fun p => p.1 == k)) = false := by
    rw [List.any_eq_false]
    intro p hp hpk
    exact h (List.mem_map.mpr ⟨p, hp, by simpa using hpk⟩)
  unfold dictInsert
  rw [hany]
  rfl

/-- Lookup in an association list with distinct keys finds the binding. -/
theorem dictGet?_of_mem {α : Type} {d : List (String × α)} {k : String} {v : α}
    (hnd : (d.map Prod.fst).Nodup) (hm : (k, v) ∈ d) : dictGet? d k = some v := by
  induction d with
  | nil => cases hm
  | cons q d ih =>
    rcases List.mem_cons.mp hm with heq | hm2
    · cases heq
      simp [dictGet?, List.find?_cons]
    · have hk : (q.1 == k) = false := by
        have hne : q.1 ≠ k := by
          intro hpk
          have hkd : k ∈ d.map Prod.fst := List.mem_map.mpr ⟨(k, v), hm2, rfl⟩
          rw [List.map_cons] at hnd
          exact (List.nodup_cons.mp hnd).1 (hpk ▸ hkd)
        simpa using hne
      have hnd2 : (d.map Prod.fst).Nodup := by
        rw [List.map_cons] at hnd
        exact (List.nodup_cons.mp hnd).2
      simp only [dictGet?, List.find?_cons, hk]
      exact ih hnd2 hm2

/-- Lookup misses every list without the key. -/
theorem dictGet?_of_not_mem {α : Type} {d : List (String × α)} {k : String}
    (h : k ∉ d.map Prod.fst) : dictGet? d k = none := by
  induction d with
  | nil => rfl
  | cons q d ih =>
    have hk : (q.1 == k) = false := by
      have hne : q.1 ≠ k :=
        fun hpk => h (List.mem_map.mpr ⟨q, List.mem_cons_self _ _, hpk⟩)
      simpa using hne
    simp only [dictGet?, List.find?_cons, hk]
    exact ih (fun hc => h ((List.mem_map.mp hc).elim
      (fun q2 hq => List.mem_map.mpr ⟨q2, List.mem_cons_of_mem _ hq.1, hq.2⟩)))

/-- Lookup in a concatenation tries the left bindings first. -/
theorem dictGet?_append {α : Type} (d1 d2 : List (String × α)) (k : String) :
    dictGet? (d1 ++ d2) k
      = match dictGet? d1 k with
        | some v => some v
        | none => dictGet? d2 k := by
  induction d1 with
  | nil => simp [dictGet?]
  | cons q d ih =>
    rcases hk : (q.1 == k) with _ | _
    · rw [List.cons_append]
      simp only [dictGet?, List.find?_cons, hk] at ih ⊢
      exact ih
    · rw [List.cons_append]
      simp only [dictGet?, List.find?_cons, hk]
      rfl

/-- The empty-start-domain test of `build_schedule_model`
(`start_ub < start_lb`, with the window bounds defaulted to the day
window). -/
def taskWindowEmpty (t : Event) : Bool :=
  decide ((t.latestEnd.getD DAY_END_MIN - DAY_START_MIN) - t.durationMinutes.getD 0
    < t.earliestStart.getD DAY_START_MIN - DAY_START_MIN)

/-- Characterization of the fixed-event pass of `build_schedule_model`: the
interval names accumulate in order, the task structures are untouched, and
under fresh distinct names the duration and fixed-start dicts are plain
appended entries. -/
theorem buildFixedEvents_spec {es : List Event} {b b2 : BuildOut}
    (h : buildFixedEvents es b = .ok b2) :
    b2.intervals = b.intervals ++ es.map Event.name ∧
    b2.startVars = b.startVars ∧
    b2.eventMap = b.eventMap ∧
    ((∀ e ∈ es, e.name ∉ b.durationMap.map Prod.fst) → (es.map Event.name).Nodup →
      b2.durationMap = b.durationMap
        ++ es.map (fun e => (e.name, e.end_.getD 0 - e.start.getD 0))) ∧
    ((∀ e ∈ es, e.name ∉ b.fixedStarts.map Prod.fst) → (es.map Event.name).Nodup →
      b2.fixedStarts = b.fixedStarts
        ++ es.map (fun e => (e.name, e.start.getD 0 - DAY_START_MIN))) := by
  induction es generalizing b with
  | nil =>
    cases h
    exact ⟨by simp, rfl, rfl, fun _ _ => by simp, fun _ _ => by simp⟩
  | cons e es ih =>
    unfold buildFixedEvents at h
    rcases hs : e.start with _ | s <;> rcases hf : e.end_ with _ | f <;>
      rw [hs, hf] at h
    · cases h
    · cases h
    · cases h
    · obtain ⟨h1, h2, h3, h4, h5⟩ := ih h
      refine ⟨by rw [h1]; simp, h2, h3, ?_, ?_⟩
      · intro hfresh hnd
        have hee : e.name ∉ b.durationMap.map Prod.fst :=
          hfresh e (List.mem_cons_self _ _)
        rw [h4 ?fresh ?nd]
        case fresh =>
          intro x hx
          rw [dictInsert_of_not_mem _ hee]
          simp only [List.map_append, List.mem_append, List.map_cons, List.map_nil]
          rintro (hx1 | hx2)
          · exact hfresh x (List.mem_cons_of_mem _ hx) hx1
          · simp only [List.mem_singleton] at hx2
            rw [List.map_cons] at hnd
            exact (List.nodup_cons.mp hnd).1
              (hx2 ▸ List.mem_map.mpr ⟨x, hx, rfl⟩)
        case nd =>
          rw [List.map_cons] at hnd
          exact (List.nodup_cons.mp hnd).2
        rw [dictInsert_of_not_mem _ hee]
        simp only [List.map_cons, hs, hf, Option.getD_some]
        have harith : (f - DAY_START_MIN) - (s - DAY_START_MIN) = f - s := by omega
        rw [List.append_assoc]
        congr 1
        simp [harith]
      · intro hfresh hnd
        have hee : e.name ∉ b.fixedStarts.map Prod.fst :=
          hfresh e (List.mem_cons_self _ _)
        rw [h5 ?fresh ?nd]
        case fresh =>
          intro x hx
          rw [dictInsert_of_not_mem _ hee]
          simp only [List.map_append, List.mem_append, List.map_cons, List.map_nil]
          rintro (hx1 | hx2)
          · exact hfresh x (List.mem_cons_of_mem _ hx) hx1
          · simp only [List.mem_singleton] at hx2
            rw [List.map_cons] at hnd
            exact (List.nodup_cons.mp hnd).1
              (hx2 ▸ List.mem_map.mpr ⟨x, hx, rfl⟩)
        case nd =>
          rw [List.map_cons] at hnd
          exact (List.nodup_cons.mp hnd).2
        rw [dictInsert_of_not_mem _ hee]
        simp only [List.map_cons, hs, Option.getD_some]
        rw [List.append_assoc]
        rfl

/-- Reduction of the task pass on a task with a present duration. -/
theorem buildTasks_cons_some (t : Event) (ts : List Event) (b : BuildOut) (d : Int)
    (hd : t.durationMinutes = some d) :
    buildTasks (t :: ts) b =
      if (t.latestEnd.getD DAY_END_MIN - DAY_START_MIN) - d
          < t.earliestStart.getD DAY_START_MIN - DAY_START_MIN then
        .error (.runtime (impossibleWindowMsg t.name))
      else
        buildTasks ts
          { b with
            durationMap := dictInsert t.name d b.durationMap
            intervals := b.intervals ++ [t.name]
            startVars := dictInsert t.name
              (t.earliestStart.getD DAY_START_MIN - DAY_START_MIN,
               (t.latestEnd.getD DAY_END_MIN - DAY_START_MIN) - d) b.startVars } := by
  conv_lhs => rw [buildTasks]
  rw [hd]

/-- Characterization of the task pass of `build_schedule_model` on success:
interval names accumulate, fixed structures are untouched, and under fresh
distinct names the duration dict and start-variable dict are plain appended
entries with the source's bounds. -/
theorem buildTasks_spec {ts : List Event} {b b2 : BuildOut}
    (h : buildTasks ts b = .ok b2) :
    b2.intervals = b.intervals ++ ts.map Event.name ∧
    b2.fixedStarts = b.fixedStarts ∧
    b2.eventMap = b.eventMap ∧
    ((∀ t ∈ ts, t.name ∉ b.durationMap.map Prod.fst) → (ts.map Event.name).Nodup →
      b2.durationMap = b.durationMap
        ++ ts.map (fun t => (t.name, t.durationMinutes.getD 0))) ∧
    ((∀ t ∈ ts, t.name ∉ b.startVars.map Prod.fst) → (ts.map Event.name).Nodup →
      b2.startVars = b.startVars ++ ts.map (fun t =>
        (t.name, (t.earliestStart.getD DAY_START_MIN - DAY_START_MIN,
          (t.latestEnd.getD DAY_END_MIN - DAY_START_MIN)
            - t.durationMinutes.getD 0)))) := by
  induction ts generalizing b with
  | nil =>
    cases h
    exact ⟨by simp, rfl, rfl, fun _ _ => by simp, fun _ _ => by simp⟩
  | cons t ts ih =>
    rcases hd : t.durationMinutes with _ | d
    · unfold buildTasks at h
      rw [hd] at h
      cases h
    · rw [buildTasks_cons_some t ts b d hd] at h
      by_cases hbad :
        ((t.latestEnd.getD DAY_END_MIN - DAY_START_MIN) - d
          < t.earliestStart.getD DAY_START_MIN - DAY_START_MIN)
      · rw [if_pos hbad] at h; cases h
      · rw [if_neg hbad] at h
        obtain ⟨h1, h2, h3, h4, h5⟩ := ih h
        refine ⟨by rw [h1]; simp, h2, h3, ?_, ?_⟩
        · intro hfresh hnd
          have hee : t.name ∉ b.durationMap.map Prod.fst :=
            hfresh t (List.mem_cons_self _ _)
          rw [h4 ?fresh ?nd]
          case fresh =>
            intro x hx
            rw [dictInsert_of_not_mem _ hee]
            simp only [List.map_append, List.mem_append, List.map_cons, List.map_nil]
            rintro (hx1 | hx2)
            · exact hfresh x (List.mem_cons_of_mem _ hx) hx1
            · simp only [List.mem_singleton] at hx2
              rw [List.map_cons] at hnd
              exact (List.nodup_cons.mp hnd).1
                (hx2 ▸ List.mem_map.mpr ⟨x, hx, rfl⟩)
          case nd =>
            rw [List.map_cons] at hnd
            exact (List.nodup_cons.mp hnd).2
          rw [dictInsert_of_not_mem _ hee]
          simp only [List.map_cons, hd, Option.getD_some]
          rw [List.append_assoc]
          rfl
        · intro hfresh hnd
          have hee : t.name ∉ b.startVars.map Prod.fst :=
            hfresh t (List.mem_cons_self _ _)
          rw [h5 ?fresh ?nd]
          case fresh =>
            intro x hx
            rw [dictInsert_of_not_mem _ hee]
            simp only [List.map_append, List.mem_append, List.map_cons, List.map_nil]
            rintro (hx1 | hx2)
            · exact hfresh x (List.mem_cons_of_mem _ hx) hx1
            · simp only [List.mem_singleton] at hx2
              rw [List.map_cons] at hnd
              exact (List.nodup_cons.mp hnd).1
                (hx2 ▸ List.mem_map.mpr ⟨x, hx, rfl⟩)
          case nd =>
            rw [List.map_cons] at hnd
            exact (List.nodup_cons.mp hnd).2
          rw [dictInsert_of_not_mem _ hee]
          simp only [List.map_cons, hd, Option.getD_some]
          rw [List.append_assoc]
          rfl

/-- The fixed-event pass succeeds whenever every event has both timestamps. -/
theorem buildFixedEvents_ok_of_wf {es : List Event} (b : BuildOut)
    (hwf : ∀ e ∈ es, e.start.isSome ∧ e.end_.isSome) :
    ∃ b2, buildFixedEvents es b = .ok b2 := by
  induction es generalizing b with
  | nil => exact ⟨b, rfl⟩
  | cons e es ih =>
    obtain ⟨hs, hf⟩ := hwf e (List.mem_cons_self _ _)
    rcases hse : e.start with _ | s
    · rw [hse] at hs; cases hs
    rcases hfe : e.end_ with _ | f
    · rw [hfe] at hf; cases hf
    obtain ⟨b2, hb2⟩ := ih _ (fun x hx => hwf x (List.mem_cons_of_mem _ hx))
    exact ⟨b2, by unfold buildFixedEvents; rw [hse, hfe]; exact hb2⟩

/-- The task pass succeeds whenever every task has a duration and a
non-empty start domain. -/
theorem buildTasks_ok_of_wf {ts : List Event} (b : BuildOut)
    (hdur : ∀ t ∈ ts, t.durationMinutes.isSome)
    (hok : ∀ t ∈ ts, taskWindowEmpty t = false) :
    ∃ b2, buildTasks ts b = .ok b2 := by
  induction ts generalizing b with
  | nil => exact ⟨b, rfl⟩
  | cons t ts ih =>
    have hd := hdur t (List.mem_cons_self _ _)
    rcases hde : t.durationMinutes with _ | d
    · rw [hde] at hd; cases hd
    have hnotbad :
        ¬ ((t.latestEnd.getD DAY_END_MIN - DAY_START_MIN) - d
          < t.earliestStart.getD DAY_START_MIN - DAY_START_MIN) := by
      have hb := hok t (List.mem_cons_self _ _)
      unfold taskWindowEmpty at hb
      rw [hde] at hb
      simpa using hb
    obtain ⟨b2, hb2⟩ := ih _ (fun x hx => hdur x (List.mem_cons_of_mem _ hx))
      (fun x hx => hok x (List.mem_cons_of_mem _ hx))
    refine ⟨b2, ?_⟩
    rw [buildTasks_cons_some t ts b d hde, if_neg hnotbad]
    exact hb2

/-- The task pass fails with the named impossible-window RuntimeError when
some task's start domain is empty (at the first such task). -/
theorem buildTasks_error_of_bad {ts : List Event} (b : BuildOut)
    (hdur : ∀ t ∈ ts, t.durationMinutes.isSome)
    (hbad : ∃ t ∈ ts, taskWindowEmpty t = true) :
    ∃ t ∈ ts, taskWindowEmpty t = true ∧
      buildTasks ts b = .error (.runtime (impossibleWindowMsg t.name)) := by
  induction ts generalizing b with
  | nil => obtain ⟨t, ht, _⟩ := hbad; cases ht
  | cons t ts ih =>
    have hd := hdur t (List.mem_cons_self _ _)
    rcases hde : t.durationMinutes with _ | d
    · rw [hde] at hd; cases hd
    by_cases hbadt : taskWindowEmpty t = true
    · refine ⟨t, List.mem_cons_self _ _, hbadt, ?_⟩
      unfold taskWindowEmpty at hbadt
      rw [hde] at hbadt
      rw [buildTasks_cons_some t ts b d hde, if_pos (by simpa using hbadt)]
    · have hbad2 : ∃ x ∈ ts, taskWindowEmpty x = true := by
        obtain ⟨x, hx, hxb⟩ := hbad
        rcases List.mem_cons.mp hx with rfl | hx2
        · exact absurd hxb hbadt
        · exact ⟨x, hx2, hxb⟩
      obtain ⟨x, hx, hxb, hrun⟩ := ih _ (fun y hy => hdur y (List.mem_cons_of_mem _ hy))
        hbad2
      refine ⟨x, List.mem_cons_of_mem _ hx, hxb, ?_⟩
      rw [buildTasks_cons_some t ts b d hde, if_neg ?notbad]
      case notbad =>
        unfold taskWindowEmpty at hbadt
        rw [hde] at hbadt
        simpa using hbadt
      exact hrun

/-- Folding fresh name-keyed inserts appends the bindings in order. -/
theorem foldl_dictInsert_fresh (l : List Event) (d : List (String × Event))
    (hf : ∀ e ∈ l, e.name ∉ d.map Prod.fst) (hnd : (l.map Event.name).Nodup) :
    l.foldl (fun d e => dictInsert e.name e d) d
      = d ++ l.map (fun e => (e.name, e)) := by
  induction l generalizing d with
  | nil => simp
  | cons e l ih =>
    rw [List.foldl_cons, dictInsert_of_not_mem _ (hf e (List.mem_cons_self _ _))]
    rw [ih (d ++ [(e.name, e)]) ?fresh ?nd]
    case fresh =>
      intro x hx
      simp only [List.map_append, List.mem_append, List.map_cons, List.map_nil]
      rintro (hx1 | hx2)
      · exact hf x (List.mem_cons_of_mem _ hx) hx1
      · simp only [List.mem_singleton] at hx2
        rw [List.map_cons] at hnd
        exact (List.nodup_cons.mp hnd).1 (hx2 ▸ List.mem_map.mpr ⟨x, hx, rfl⟩)
    case nd =>
      rw [List.map_cons] at hnd
      exact (List.nodup_cons.mp hnd).2
    simp

/-- Full characterization of the built model under distinct names. -/
theorem build_schedule_model_spec {events tasks : List Event} {b : BuildOut}
    (h : build_schedule_model events tasks = .ok b)
    (hnd : (events.map Event.name ++ tasks.map Event.name).Nodup) :
    b.intervals = events.map Event.name ++ tasks.map Event.name ∧
    b.startVars.map Prod.fst = tasks.map Event.name ∧
    b.durationMap = events.map (fun e => (e.name, e.end_.getD 0 - e.start.getD 0))
      ++ tasks.map (fun t => (t.name, t.durationMinutes.getD 0)) ∧
    b.fixedStarts = events.map (fun e => (e.name, e.start.getD 0 - DAY_START_MIN)) ∧
    b.eventMap = events.map (fun e => (e.name, e))
      ++ tasks.map (fun t => (t.name, t)) ∧
    b.startVars = tasks.map (fun t =>
      (t.name, (t.earliestStart.getD DAY_START_MIN - DAY_START_MIN,
        (t.latestEnd.getD DAY_END_MIN - DAY_START_MIN) - t.durationMinutes.getD 0))) := by
  have hndE : (events.map Event.name).Nodup := hnd.of_append_left
  have hndT : (tasks.map Event.name).Nodup := hnd.of_append_right
  have hdisj : ∀ n ∈ events.map Event.name, n ∉ tasks.map Event.name :=
    fun n hn => List.disjoint_of_nodup_append hnd hn
  rcases hb1 : buildFixedEvents events
      ⟨[], [], [], [],
        tasks.foldl (fun d t => dictInsert t.name t d) (dictOfEventsByName events)⟩
    with e1 | b1
  · simp only [build_schedule_model, hb1, except_error_bind] at h
    cases h
  simp only [build_schedule_model, hb1, except_ok_bind] at h
  obtain ⟨f1, f2, f3, f4, f5⟩ := buildFixedEvents_spec hb1
  obtain ⟨t1, t2, t3, t4, t5⟩ := buildTasks_spec h
  have hdm1 : b1.durationMap
      = events.map (fun e => (e.name, e.end_.getD 0 - e.start.getD 0)) := by
    rw [f4 (by intro e he; simp) hndE]
    simp
  have hfs1 : b1.fixedStarts
      = events.map (fun e => (e.name, e.start.getD 0 - DAY_START_MIN)) := by
    rw [f5 (by intro e he; simp) hndE]
    simp
  have hiv1 : b1.intervals = events.map Event.name := by rw [f1]; simp
  have hsv1 : b1.startVars = [] := by rw [f2]
  have hem1 : b1.eventMap = events.map (fun e => (e.name, e))
      ++ tasks.map (fun t => (t.name, t)) := by
    rw [f3]
    show tasks.foldl (fun d t => dictInsert t.name t d) (dictOfEventsByName events) = _
    have hev : dictOfEventsByName events = events.map (fun e => (e.name, e)) := by
      unfold dictOfEventsByName
      rw [foldl_dictInsert_fresh events [] (by intro e he; simp) hndE]
      simp
    rw [hev, foldl_dictInsert_fresh tasks _ ?fresh hndT]
    case fresh =>
      intro t ht
      simp only [List.map_map]
      intro hc
      have : t.name ∈ events.map Event.name := by
        simpa using hc
      exact hdisj t.name this (List.mem_map.mpr ⟨t, ht, rfl⟩)
  have hfreshDur : ∀ t ∈ tasks, t.name ∉ b1.durationMap.map Prod.fst := by
    intro t ht
    rw [hdm1]
    simp only [List.map_map]
    intro hc
    have : t.name ∈ events.map Event.name := by simpa using hc
    exact hdisj t.name this (List.mem_map.mpr ⟨t, ht, rfl⟩)
  have hfreshSv : ∀ t ∈ tasks, t.name ∉ b1.startVars.map Prod.fst := by
    intro t ht
    rw [hsv1]
    simp
  refine ⟨?_, ?_, ?_, ?_, ?_, ?_⟩
  · rw [t1, hiv1]
  · rw [t5 hfreshSv hndT, hsv1]
    simp [List.map_map]
  · rw [t4 hfreshDur hndT, hdm1]
  · rw [t2, hfs1]
  · rw [t3, hem1]
  · rw [t5 hfreshSv hndT, hsv1]
    simp

/-- Reduction of `solve_schedule` when the solver returns an assignment. -/
theorem solve_schedule_ok {b : BuildOut} {oracle : Oracle} {asg : String → Int}
    (ho : oracle b = some asg) :
    solve_schedule b oracle = .ok (sortByStart
      ((b.intervals.filter
          (fun n => !((b.startVars.map Prod.fst).contains n))).map (solveFixedOut b)
        ++ (b.startVars.map Prod.fst).map (solveFlexOut b asg))) := by
  unfold solve_schedule
  rw [ho]

/-- Inserting always puts the key among the dict keys. -/
theorem dictInsert_self_mem_keys {α : Type} (k : String) (v : α)
    (d : List (String × α)) : k ∈ (dictInsert k v d).map Prod.fst := by
  unfold dictInsert
  by_cases hc : (d.any (fun p => p.1 == k)) = true
  · rw [if_pos hc]
    rw [List.any_eq_true] at hc
    obtain ⟨p, hp, hpk⟩ := hc
    refine List.mem_map.mpr ⟨(k, v), ?_, rfl⟩
    refine List.mem_map.mpr ⟨p, hp, ?_⟩
    simp only [beq_iff_eq] at hpk
    simp [hpk]
  · rw [if_neg hc]
    simp

/-- Inserting keeps every existing dict key. -/
theorem dictInsert_mem_keys_of_mem {α : Type} {k2 : String} (k : String) (v : α)
    {d : List (String × α)} (h : k2 ∈ d.map Prod.fst) :
    k2 ∈ (dictInsert k v d).map Prod.fst := by
  unfold dictInsert
  by_cases hc : (d.any (fun p => p.1 == k)) = true
  · rw [if_pos hc]
    obtain ⟨p, hp, hpk⟩ := List.mem_map.mp h
    by_cases hk : (p.1 == k) = true
    · refine List.mem_map.mpr ⟨(k, v), List.mem_map.mpr ⟨p, hp, by rw [if_pos hk]⟩, ?_⟩
      simp only [beq_iff_eq] at hk
      simp [← hpk, hk]
    · exact List.mem_map.mpr ⟨p, List.mem_map.mpr ⟨p, hp, by rw [if_neg hk]⟩, hpk⟩
  · rw [if_neg hc]
    simp only [List.map_append, List.mem_append]
    exact Or.inl h

/-- Every task name becomes a start-variable key (no distinctness needed). -/
theorem buildTasks_task_keys {ts : List Event} {b b2 : BuildOut}
    (h : buildTasks ts b = .ok b2) :
    (∀ t ∈ ts, t.name ∈ b2.startVars.map Prod.fst) ∧
    (∀ n ∈ b.startVars.map Prod.fst, n ∈ b2.startVars.map Prod.fst) := by
  induction ts generalizing b with
  | nil =>
    cases h
    exact ⟨fun t ht => absurd ht (List.not_mem_nil t), fun n hn => hn⟩
  | cons t ts ih =>
    rcases hd : t.durationMinutes with _ | d
    · unfold buildTasks at h
      rw [hd] at h
      cases h
    · rw [buildTasks_cons_some t ts b d hd] at h
      by_cases hbad :
        ((t.latestEnd.getD DAY_END_MIN - DAY_START_MIN) - d
          < t.earliestStart.getD DAY_START_MIN - DAY_START_MIN)
      · rw [if_pos hbad] at h; cases h
      · rw [if_neg hbad] at h
        obtain ⟨ih1, ih2⟩ := ih h
        constructor
        · intro x hx
          rcases List.mem_cons.mp hx with rfl | hx2
          · exact ih2 x.name (dictInsert_self_mem_keys _ _ _)
          · exact ih1 x hx2
        · intro n hn
          exact ih2 n (dictInsert_mem_keys_of_mem _ _ hn)

/-- Every interval name and every start-variable key names an output event of
`solve_schedule`. -/
theorem solve_schedule_names {b : BuildOut} {oracle : Oracle} {asg : String → Int}
    {evs : List Event} (ho : oracle b = some asg)
    (hs : solve_schedule b oracle = .ok evs) :
    ∀ n, (n ∈ b.intervals ∨ n ∈ b.startVars.map Prod.fst) →
      ∃ e2 ∈ evs, e2.name = n := by
  intro n hn
  rw [solve_schedule_ok ho] at hs
  cases hs
  by_cases hsv : n ∈ b.startVars.map Prod.fst
  · refine ⟨solveFlexOut b asg n, ?_, rfl⟩
    rw [mem_sortByStart]
    exact List.mem_append_right _ (List.mem_map.mpr ⟨n, hsv, rfl⟩)
  · rcases hn with hn | hn
    · refine ⟨solveFixedOut b n, ?_, rfl⟩
      rw [mem_sortByStart]
      refine List.mem_append_left _ (List.mem_map.mpr ⟨n, ?_, rfl⟩)
      refine List.mem_filter.mpr ⟨hn, ?_⟩
      simpa using hsv
    · exact absurd hn hsv

/-- Reduction of `optimize_day_events` past the partition. -/
theorem optimize_day_events_eq {l : List Event} (oracle : Oracle)
    {fs ts : List Event} (hne : l.isEmpty = false)
    (hp : partitionDayEvents l = .ok (fs, ts)) :
    optimize_day_events l oracle =
      if (dayFlexibleTasks fs ts).isEmpty then
        .ok ⟨sortByStart (dayFixedEvents fs), none⟩
      else
        match schedule_day (dayFixedEvents fs) (dayFlexibleTasks fs ts) oracle with
        | .ok evs => .ok ⟨evs, none⟩
        | .error (.runtime msg) => .ok ⟨l, some msg⟩
        | .error e => .error e := by
  simp only [optimize_day_events, hne, hp, except_ok_bind, Bool.false_eq_true, if_false]

/-- Partitioned flexible tasks always reach the solver task list. -/
theorem subset_dayFlexibleTasks (fs ts : List Event) :
    ∀ x ∈ ts, x ∈ dayFlexibleTasks fs ts := by
  intro x hx
  unfold dayFlexibleTasks
  by_cases hl : 1 < fs.length
  · rw [if_pos hl]; exact List.mem_append_left _ hx
  · rw [if_neg hl]; exact hx

/-- Decomposition of a successful solver round trip inside
`optimize_day_events`: the model was built and the oracle produced an
assignment. -/
theorem schedule_day_ok_decompose {events tasks : List Event} {oracle : Oracle}
    {evs : List Event} (hflex : tasks.isEmpty = false)
    (hsd : schedule_day events tasks oracle = .ok evs) :
    ∃ b asg, build_schedule_model events tasks = .ok b ∧ oracle b = some asg ∧
      solve_schedule b oracle = .ok evs := by
  have hc : (events.isEmpty && tasks.isEmpty) = false := by
    rw [hflex, Bool.and_false]
  simp only [schedule_day, hc, Bool.false_eq_true, if_false] at hsd
  rcases hb : build_schedule_model events tasks with berr | b
  · rw [hb] at hsd
    simp only [except_error_bind] at hsd
    cases hsd
  rw [hb] at hsd
  simp only [except_ok_bind] at hsd
  rcases ho : oracle b with _ | asg
  · unfold solve_schedule at hsd
    rw [ho] at hsd
    cases hsd
  exact ⟨b, asg, rfl, ho, hsd⟩

/-- Every input event of a successful, error-free `optimize_day_events` run
appears in the output by name (no distinctness needed). -/
theorem optimize_day_events_names {l : List Event} {oracle : Oracle} {r : OptOut}
    (h : optimize_day_events l oracle = .ok r) (herr : r.error = none) :
    ∀ e ∈ l, ∃ e2 ∈ r.events, e2.name = e.name := by
  intro e he
  by_cases hne0 : l.isEmpty = true
  · rw [List.isEmpty_iff] at hne0
    subst hne0
    cases he
  rw [Bool.not_eq_true] at hne0
  rcases hp : partitionDayEvents l with perr | ⟨fs, ts⟩
  · simp only [optimize_day_events, hne0, hp, except_error_bind, Bool.false_eq_true,
      if_false] at h
    cases h
  rw [optimize_day_events_eq oracle hne0 hp] at h
  by_cases hflex : (dayFlexibleTasks fs ts).isEmpty = true
  · rw [if_pos hflex] at h
    cases h
    rw [List.isEmpty_iff] at hflex
    rcases partitionDayEvents_cover hp e he with ⟨hty, hmem⟩ | ⟨hty, hmem⟩
    · exact absurd (hflex ▸ subset_dayFlexibleTasks fs ts _ hmem)
        (List.not_mem_nil _)
    · rcases dayFixedEvents_total fs ts _ hmem with hk | hk
      · exact ⟨{ e with type_ := some "fixed" }, mem_sortByStart.mpr hk, rfl⟩
      · exact absurd (hflex ▸ hk) (List.not_mem_nil _)
  · rw [if_neg hflex] at h
    rw [Bool.not_eq_true] at hflex
    rcases hsd : schedule_day (dayFixedEvents fs) (dayFlexibleTasks fs ts) oracle
      with serr | evs
    · rcases serr with _ | msg | _ <;> rw [hsd] at h
      · cases h
      · cases h
        simp at herr
      · cases h
    · rw [hsd] at h
      cases h
      obtain ⟨b, asg, hb, ho, hsolve⟩ := schedule_day_ok_decompose hflex hsd
      have hnames := solve_schedule_names ho hsolve
      rcases hb1 : buildFixedEvents (dayFixedEvents fs)
          ⟨[], [], [], [],
            (dayFlexibleTasks fs ts).foldl (fun d t => dictInsert t.name t d)
              (dictOfEventsByName (dayFixedEvents fs))⟩
        with berr1 | b1
      · simp only [build_schedule_model, hb1, except_error_bind] at hb
        cases hb
      have hbt : buildTasks (dayFlexibleTasks fs ts) b1 = .ok b := by
        simpa only [build_schedule_model, hb1, except_ok_bind] using hb
      have hiv1 : b1.intervals = (dayFixedEvents fs).map Event.name := by
        have := (buildFixedEvents_spec hb1).1
        simpa using this
      have hiv : b.intervals
          = (dayFixedEvents fs).map Event.name
            ++ (dayFlexibleTasks fs ts).map Event.name := by
        rw [(buildTasks_spec hbt).1, hiv1]
      have hkeys := (buildTasks_task_keys hbt).1
      rcases partitionDayEvents_cover hp e he with ⟨hty, hmem⟩ | ⟨hty, hmem⟩
      · obtain ⟨e2, he2, hn2⟩ := hnames e.name
          (Or.inr (hkeys (toFlexibleTask e)
            (subset_dayFlexibleTasks fs ts (toFlexibleTask e) hmem)))
        exact ⟨e2, he2, hn2⟩
      · rcases dayFixedEvents_total fs ts _ hmem with hk | hk
        · have hmemn : e.name ∈ (dayFixedEvents fs).map Event.name :=
            List.mem_map.mpr ⟨{ e with type_ := some "fixed" }, hk, rfl⟩
          obtain ⟨e2, he2, hn2⟩ := hnames e.name
            (Or.inl (by rw [hiv]; exact List.mem_append_left _ hmemn))
          exact ⟨e2, he2, hn2⟩
        · obtain ⟨e2, he2, hn2⟩ := hnames e.name
            (Or.inr (hkeys (demotedTask { e with type_ := some "fixed" }) hk))
          exact ⟨e2, he2, hn2⟩

/-- Decomposition of a successful `merge_and_optimize_events` call. -/
theorem merge_ok_decompose {existing newEvents : List Event} {dels : List String}
    {edits : List Event} {oracle : Oracle} {m : MergeResult}
    (hm : merge_and_optimize_events existing newEvents dels edits oracle = .ok m) :
    ∃ o, optimize_day_events (mergedEventList existing newEvents dels edits) oracle
        = .ok o ∧
      m = ⟨o.events, o.error, mergeConflicts existing newEvents dels edits⟩ := by
  rcases ho : optimize_day_events (mergedEventList existing newEvents dels edits) oracle
    with oerr | o
  · simp only [merge_and_optimize_events, ho, except_error_bind] at hm
    cases hm
  · simp only [merge_and_optimize_events, ho, except_ok_bind] at hm
    exact ⟨o, rfl, (Except.ok.inj hm).symm⟩

/-! ## Claims about merge_and_optimize_events and the pipeline handler -/

/-- C3 (amended): when a batch produces ConflictRecords, the non-conflicting
items — the existing events surviving deletes and edits, the accepted adds
and the re-queued Flexible items, i.e. exactly `mergedEventList` — are all
applied to the merged-and-optimized result that the scheduler returns (no
rollback inside `merge_and_optimize_events`); but `handle_modify_schedule`
returns before saving whenever the conflicts list is non-empty, so nothing
is persisted for that day on a partial conflict; the day is persisted only
when there is no error and no conflict. -/
theorem c3_merge_applies_but_handler_rolls_back (existing newEvents : List Event)
    (dels : List String) (edits : List Event) (oracle : Oracle) (m : MergeResult)
    (hm : merge_and_optimize_events existing newEvents dels edits oracle = .ok m)
    (herr : m.error = none) :
    (∀ e ∈ mergedEventList existing newEvents dels edits,
      ∃ e2 ∈ m.events, e2.name = e.name) ∧
    m.conflicts = mergeConflicts existing newEvents dels edits ∧
    (m.conflicts ≠ [] →
      handle_modify_day existing newEvents dels edits oracle
        = .ok ⟨none, .conflictResp m.conflicts⟩) ∧
    (m.conflicts = [] →
      handle_modify_day existing newEvents dels edits oracle
        = .ok ⟨some m.events, .success⟩) := by
  obtain ⟨o, ho, hmo⟩ := merge_ok_decompose hm
  have hoe : o.error = none := by rw [hmo] at herr; exact herr
  refine ⟨?_, ?_, ?_, ?_⟩
  · intro e he
    obtain ⟨e2, he2, hn2⟩ := optimize_day_events_names ho hoe e he
    rw [hmo]
    exact ⟨e2, he2, hn2⟩
  · rw [hmo]
  · intro hc
    have hce : m.conflicts.isEmpty = false := by
      cases hq : m.conflicts.isEmpty
      · rfl
      · rw [List.isEmpty_iff] at hq
        exact absurd hq hc
    simp only [handle_modify_day, hm, except_ok_bind, herr, hce, Bool.false_eq_true,
      if_false]
  · intro hc
    have hce : m.conflicts.isEmpty = true := by rw [hc]; rfl
    simp only [handle_modify_day, hm, except_ok_bind, herr, hce, if_true]

/-- Existing fixed event used in the C3 counterexample. -/
def c3Fixed : Event :=
  { name := "Lecture", type_ := some "fixed", start := some 540, end_ := some 600 }

/-- Non-conflicting add used in the C3 counterexample. -/
def c3Safe : Event :=
  { name := "Lunch", type_ := some "fixed", start := some 660, end_ := some 720 }

/-- Conflicting add used in the C3 counterexample. -/
def c3Conflicting : Event :=
  { name := "Standup", type_ := some "fixed", start := some 540, end_ := some 600 }

/-- Oracle for the C3 counterexample (never consulted: no flexible tasks). -/
def c3Oracle : Oracle := fun _ => none

/-- C3 counterexample: a batch with one safe add and one conflicting add.
The scheduler applies the safe add to its returned result, but the pipeline
handler returns with the conflict BEFORE saving, so nothing at all — not
even the safe add — is persisted for the day: on a partial conflict the
whole batch's persistence is rolled back, contrary to the claim. -/
theorem c3_counterexample_nothing_persisted :
    handle_modify_day [c3Fixed] [c3Safe, c3Conflicting] [] [] c3Oracle
      = .ok ⟨none, .conflictResp [mkConflictRecord c3Conflicting c3Fixed]⟩ ∧
    (detect_and_resolve_conflicts [c3Fixed] [c3Safe, c3Conflicting]).1 = [c3Safe] ∧
    merge_and_optimize_events [c3Fixed] [c3Safe, c3Conflicting] [] [] c3Oracle
      = .ok ⟨[c3Fixed, c3Safe], none, [mkConflictRecord c3Conflicting c3Fixed]⟩ := by
  refine ⟨by decide, by decide, by decide⟩

/-- Witness for the amended C3 at the counterexample input: the safe add is
applied to the merge result while the handler persists nothing. -/
theorem c3_merge_applies_but_handler_rolls_back_witness :
    (∀ e ∈ mergedEventList [c3Fixed] [c3Safe, c3Conflicting] [] [],
      ∃ e2 ∈ ([c3Fixed, c3Safe] : List Event), e2.name = e.name) ∧
    handle_modify_day [c3Fixed] [c3Safe, c3Conflicting] [] [] c3Oracle
      = .ok ⟨none,
          .conflictResp [mkConflictRecord c3Conflicting c3Fixed]⟩ := by
  have H := c3_merge_applies_but_handler_rolls_back [c3Fixed] [c3Safe, c3Conflicting]
    [] [] c3Oracle ⟨[c3Fixed, c3Safe], none, [mkConflictRecord c3Conflicting c3Fixed]⟩
    (by decide) rfl
  exact ⟨H.1, H.2.2.1 (by decide)⟩

/-- The handler's first check: a merge result carrying an error returns the
error response and persists nothing, regardless of the conflicts list. -/
theorem handle_of_merge_error {existing newEvents : List Event} {dels : List String}
    {edits : List Event} {oracle : Oracle} {m : MergeResult} {msg : String}
    (hm : merge_and_optimize_events existing newEvents dels edits oracle = .ok m)
    (he : m.error = some msg) :
    handle_modify_day existing newEvents dels edits oracle
      = .ok ⟨none, .errorResp msg⟩ := by
  simp only [handle_modify_day, hm, except_ok_bind, he]

/-- Well-formedness of the solver inputs produced by the partition and scan:
kept fixed events have both timestamps, and every task has a duration. -/
theorem day_inputs_wf {l fs ts : List Event}
    (hp : partitionDayEvents l = .ok (fs, ts)) :
    (∀ f ∈ dayFixedEvents fs, f.start.isSome ∧ f.end_.isSome) ∧
    (∀ t ∈ dayFlexibleTasks fs ts, t.durationMinutes.isSome) := by
  constructor
  · intro f hf
    obtain ⟨e, _, hfe⟩ := partitionDayEvents_fixed_src hp f (dayFixedEvents_src fs f hf)
    obtain ⟨hfa, hs, he⟩ := toFixedEvent_ok hfe
    constructor
    · rw [hfa]; exact hs
    · rw [hfa]; exact he
  · intro t ht
    rcases dayFlexibleTasks_src fs ts t ht with hts | ⟨e, _, hte⟩
    · obtain ⟨e, _, _, hte⟩ := partitionDayEvents_task_src hp t hts
      rw [hte]
      simp [toFlexibleTask]
    · rw [hte]
      simp [demotedTask]

/-- C4: whenever the Optimizer cannot find a valid assignment for the day's
merged events — a Flexible task whose feasible start domain
[earliestStart, latestEnd - duration] is empty, or a solver-infeasible
model — the merge-and-optimize result carries an explicit named error
instead of crashing (the empty-domain error names the offending task), the
handler's error check precedes its conflict check so the error takes
precedence over any conflicts list, and nothing is persisted for that
day. -/
theorem c4_infeasibility_named_error_no_persist (existing newEvents : List Event)
    (dels : List String) (edits : List Event) (oracle : Oracle) (fs ts : List Event)
    (hprep : partitionDayEvents (mergedEventList existing newEvents dels edits)
      = .ok (fs, ts))
    (hinf : (∃ t ∈ dayFlexibleTasks fs ts, taskWindowEmpty t = true) ∨
      ((dayFlexibleTasks fs ts) ≠ [] ∧
        (∀ t ∈ dayFlexibleTasks fs ts, taskWindowEmpty t = false) ∧
        (∀ b, build_schedule_model (dayFixedEvents fs) (dayFlexibleTasks fs ts)
          = .ok b → oracle b = none))) :
    ∃ msg, merge_and_optimize_events existing newEvents dels edits oracle
        = .ok ⟨mergedEventList existing newEvents dels edits, some msg,
            mergeConflicts existing newEvents dels edits⟩ ∧
      ((∃ t ∈ dayFlexibleTasks fs ts, taskWindowEmpty t = true ∧
          msg = impossibleWindowMsg t.name) ∨
        msg = "No feasible schedule could be found.") ∧
      handle_modify_day existing newEvents dels edits oracle
        = .ok ⟨none, .errorResp msg⟩ := by
  obtain ⟨hfswf, hdur⟩ := day_inputs_wf hprep
  have htne : dayFlexibleTasks fs ts ≠ [] := by
    rcases hinf with ⟨t, ht, _⟩ | ⟨h, _, _⟩
    · exact List.ne_nil_of_mem ht
    · exact h
  have htie : (dayFlexibleTasks fs ts).isEmpty = false := by
    cases hq : (dayFlexibleTasks fs ts).isEmpty
    · rfl
    · rw [List.isEmpty_iff] at hq
      exact absurd hq htne
  have hlne : (mergedEventList existing newEvents dels edits).isEmpty = false := by
    cases hq : (mergedEventList existing newEvents dels edits).isEmpty
    · rfl
    · rw [List.isEmpty_iff] at hq
      rw [hq] at hprep
      have : fs = [] ∧ ts = [] := by
        have h2 : (Except.ok ([], []) : Except PyErr (List Event × List Event))
            = .ok (fs, ts) := hprep
        have h3 := Except.ok.inj h2
        exact ⟨(congrArg Prod.fst h3).symm, (congrArg Prod.snd h3).symm⟩
      obtain ⟨hfs0, hts0⟩ := this
      subst hfs0
      subst hts0
      exact absurd rfl htne
  obtain ⟨b1, hb1⟩ := buildFixedEvents_ok_of_wf
    ⟨[], [], [], [],
      (dayFlexibleTasks fs ts).foldl (fun d t => dictInsert t.name t d)
        (dictOfEventsByName (dayFixedEvents fs))⟩ hfswf
  have hc : ((dayFixedEvents fs).isEmpty && (dayFlexibleTasks fs ts).isEmpty)
      = false := by
    rw [htie, Bool.and_false]
  rcases hinf with hbad | ⟨_, hgood, horacle⟩
  · -- empty-domain branch: build_schedule_model raises the named RuntimeError
    obtain ⟨t, ht, htb, hrun⟩ := buildTasks_error_of_bad b1 hdur hbad
    have hbuild : build_schedule_model (dayFixedEvents fs) (dayFlexibleTasks fs ts)
        = .error (.runtime (impossibleWindowMsg t.name)) := by
      simp only [build_schedule_model, hb1, except_ok_bind]
      exact hrun
    have hsched : schedule_day (dayFixedEvents fs) (dayFlexibleTasks fs ts) oracle
        = .error (.runtime (impossibleWindowMsg t.name)) := by
      simp only [schedule_day, hc, Bool.false_eq_true, if_false, hbuild,
        except_error_bind]
    have hopt : optimize_day_events (mergedEventList existing newEvents dels edits)
        oracle = .ok ⟨mergedEventList existing newEvents dels edits,
          some (impossibleWindowMsg t.name)⟩ := by
      rw [optimize_day_events_eq oracle hlne hprep, if_neg (by rw [htie]; simp),
        hsched]
    have hmerge : merge_and_optimize_events existing newEvents dels edits oracle
        = .ok ⟨mergedEventList existing newEvents dels edits,
            some (impossibleWindowMsg t.name),
            mergeConflicts existing newEvents dels edits⟩ := by
      simp only [merge_and_optimize_events, hopt, except_ok_bind]
    exact ⟨impossibleWindowMsg t.name, hmerge, Or.inl ⟨t, ht, htb, rfl⟩,
      handle_of_merge_error hmerge rfl⟩
  · -- solver-infeasible branch: solve_schedule raises the RuntimeError
    obtain ⟨b, hbt⟩ := buildTasks_ok_of_wf b1 hdur hgood
    have hbuild : build_schedule_model (dayFixedEvents fs) (dayFlexibleTasks fs ts)
        = .ok b := by
      simp only [build_schedule_model, hb1, except_ok_bind]
      exact hbt
    have hsolve : solve_schedule b oracle
        = .error (.runtime "No feasible schedule could be found.") := by
      unfold solve_schedule
      rw [horacle b hbuild]
    have hsched : schedule_day (dayFixedEvents fs) (dayFlexibleTasks fs ts) oracle
        = .error (.runtime "No feasible schedule could be found.") := by
      simp only [schedule_day, hc, Bool.false_eq_true, if_false, hbuild,
        except_ok_bind]
      exact hsolve
    have hopt : optimize_day_events (mergedEventList existing newEvents dels edits)
        oracle = .ok ⟨mergedEventList existing newEvents dels edits,
          some "No feasible schedule could be found."⟩ := by
      rw [optimize_day_events_eq oracle hlne hprep, if_neg (by rw [htie]; simp),
        hsched]
    have hmerge : merge_and_optimize_events existing newEvents dels edits oracle
        = .ok ⟨mergedEventList existing newEvents dels edits,
            some "No feasible schedule could be found.",
            mergeConflicts existing newEvents dels edits⟩ := by
      simp only [merge_and_optimize_events, hopt, except_ok_bind]
    exact ⟨"No feasible schedule could be found.", hmerge, Or.inr rfl,
      handle_of_merge_error hmerge rfl⟩

/-- Flexible task with an empty start domain (781 minutes in a 780-minute
day window), used to witness C4. -/
def c4Task : Event :=
  { name := "Thesis", type_ := some "flexible", durationMinutes := some 781 }

/-- Oracle used to witness C4 (the build fails before it is consulted). -/
def c4Oracle : Oracle := fun _ => none

/-- Witness for C4 at a concrete empty-domain task. -/
theorem c4_infeasibility_named_error_no_persist_witness :
    ∃ msg, merge_and_optimize_events [] [c4Task] [] [] c4Oracle
        = .ok ⟨mergedEventList [] [c4Task] [] [], some msg,
            mergeConflicts [] [c4Task] [] []⟩ ∧
      ((∃ t ∈ dayFlexibleTasks [] [toFlexibleTask c4Task], taskWindowEmpty t = true ∧
          msg = impossibleWindowMsg t.name) ∨
        msg = "No feasible schedule could be found.") ∧
      handle_modify_day [] [c4Task] [] [] c4Oracle = .ok ⟨none, .errorResp msg⟩ :=
  c4_infeasibility_named_error_no_persist [] [c4Task] [] [] c4Oracle
    [] [toFlexibleTask c4Task] (by decide)
    (Or.inl ⟨toFlexibleTask c4Task, by decide, by decide⟩)

/-- The value `solve_schedule` rebuilds for a fixed event, under distinct
names: the original event with normalized type and its own timestamps. -/
theorem solveFixedOut_eq {events tasks : List Event} {b : BuildOut}
    (hb : build_schedule_model events tasks = .ok b)
    (hnd : (events.map Event.name ++ tasks.map Event.name).Nodup)
    {f : Event} (hf : f ∈ events) {s fi : Int}
    (hs : f.start = some s) (hfi : f.end_ = some fi) :
    solveFixedOut b f.name
      = { f with type_ := some "fixed", start := some s, end_ := some fi } := by
  obtain ⟨hiv, hsvk, hdm, hfs, hem, hsv⟩ := build_schedule_model_spec hb hnd
  have hndE : (events.map Event.name).Nodup := hnd.of_append_left
  have h1 : dictGet? b.fixedStarts f.name = some (s - DAY_START_MIN) := by
    rw [hfs]
    apply dictGet?_of_mem
    · rw [List.map_map]; exact hndE
    · exact List.mem_map.mpr ⟨f, hf, by simp [hs]⟩
  have h2 : dictGet? b.durationMap f.name = some (fi - s) := by
    rw [hdm, dictGet?_append]
    have hL : dictGet? (events.map fun e => (e.name, e.end_.getD 0 - e.start.getD 0))
        f.name = some (fi - s) := by
      apply dictGet?_of_mem
      · rw [List.map_map]; exact hndE
      · exact List.mem_map.mpr ⟨f, hf, by simp [hs, hfi]⟩
    rw [hL]
  have h3 : dictGet? b.eventMap f.name = some f := by
    rw [hem, dictGet?_append]
    have hL : dictGet? (events.map fun e => (e.name, e)) f.name = some f := by
      apply dictGet?_of_mem
      · rw [List.map_map]; exact hndE
      · exact List.mem_map.mpr ⟨f, hf, rfl⟩
    rw [hL]
  unfold solveFixedOut
  rw [h1, h2, h3]
  simp only [Option.getD_some]
  have e2 : DAY_START_MIN + (s - DAY_START_MIN) + (fi - s) = fi := by omega
  have e1 : DAY_START_MIN + (s - DAY_START_MIN) = s := by omega
  rw [e2, e1]

/-- The value `solve_schedule` rebuilds for a flexible task, under distinct
names: the original task re-timed with the solver assignment. -/
theorem solveFlexOut_eq {events tasks : List Event} {b : BuildOut}
    (hb : build_schedule_model events tasks = .ok b)
    (hnd : (events.map Event.name ++ tasks.map Event.name).Nodup)
    {t : Event} (ht : t ∈ tasks) {d : Int}
    (hd : t.durationMinutes = some d) (asg : String → Int) :
    solveFlexOut b asg t.name
      = { t with
          type_ := some "flexible"
          start := some (DAY_START_MIN + asg t.name)
          end_ := some (DAY_START_MIN + asg t.name + d) } := by
  obtain ⟨hiv, hsvk, hdm, hfs, hem, hsv⟩ := build_schedule_model_spec hb hnd
  have hndT : (tasks.map Event.name).Nodup := hnd.of_append_right
  have hdisj : t.name ∉ events.map Event.name := by
    intro hc
    exact (List.disjoint_of_nodup_append hnd hc)
      (List.mem_map.mpr ⟨t, ht, rfl⟩)
  have h2 : dictGet? b.durationMap t.name = some d := by
    rw [hdm, dictGet?_append]
    have hL : dictGet? (events.map fun e => (e.name, e.end_.getD 0 - e.start.getD 0))
        t.name = none := by
      apply dictGet?_of_not_mem
      rw [List.map_map]
      exact hdisj
    rw [hL]
    have hR : dictGet? (tasks.map fun t => (t.name, t.durationMinutes.getD 0))
        t.name = some d := by
      apply dictGet?_of_mem
      · rw [List.map_map]; exact hndT
      · exact List.mem_map.mpr ⟨t, ht, by simp [hd]⟩
    rw [hR]
  have h3 : dictGet? b.eventMap t.name = some t := by
    rw [hem, dictGet?_append]
    have hL : dictGet? (events.map fun e => (e.name, e)) t.name = none := by
      apply dictGet?_of_not_mem
      rw [List.map_map]
      exact hdisj
    rw [hL]
    have hR : dictGet? (tasks.map fun t => (t.name, t)) t.name = some t := by
      apply dictGet?_of_mem
      · rw [List.map_map]; exact hndT
      · exact List.mem_map.mpr ⟨t, ht, rfl⟩
    rw [hR]
  unfold solveFlexOut
  rw [h2, h3]
  simp only [Option.getD_some]

/-- Membership of the rebuilt events in the solver output, under distinct
names. -/
theorem solve_schedule_mem {events tasks : List Event} {b : BuildOut}
    {oracle : Oracle} {asg : String → Int} {evs : List Event}
    (hb : build_schedule_model events tasks = .ok b)
    (hnd : (events.map Event.name ++ tasks.map Event.name).Nodup)
    (ho : oracle b = some asg) (hs : solve_schedule b oracle = .ok evs) :
    (∀ f ∈ events, solveFixedOut b f.name ∈ evs) ∧
    (∀ t ∈ tasks, solveFlexOut b asg t.name ∈ evs) ∧
    List.Sorted startLe evs := by
  obtain ⟨hiv, hsvk, _, _, _, _⟩ := build_schedule_model_spec hb hnd
  rw [solve_schedule_ok ho] at hs
  cases hs
  refine ⟨?_, ?_, sorted_sortByStart _⟩
  · intro f hf
    rw [mem_sortByStart]
    refine List.mem_append_left _ (List.mem_map.mpr ⟨f.name, ?_, rfl⟩)
    refine List.mem_filter.mpr ⟨?_, ?_⟩
    · rw [hiv]
      exact List.mem_append_left _ (List.mem_map.mpr ⟨f, hf, rfl⟩)
    · have hdisj : f.name ∉ b.startVars.map Prod.fst := by
        rw [hsvk]
        intro hc
        exact (List.disjoint_of_nodup_append hnd
          (List.mem_map.mpr ⟨f, hf, rfl⟩)) hc
      simpa using hdisj
  · intro t ht
    rw [mem_sortByStart]
    refine List.mem_append_right _ (List.mem_map.mpr ⟨t.name, ?_, rfl⟩)
    rw [hsvk]
    exact List.mem_map.mpr ⟨t, ht, rfl⟩

/-- Folding explicit timestamps back into an event that already has them. -/
theorem event_update_fold (e : Event) {s fi : Int} (hs : e.start = some s)
    (hfi : e.end_ = some fi) (ty : Option String) :
    ({ e with type_ := ty, start := some s, end_ := some fi } : Event)
      = { e with type_ := ty } := by
  cases e
  simp only [Event.mk.injEq] at hs hfi ⊢
  simp_all

/-- The solver inputs keep distinct names when the optimizer input has
distinct names. -/
theorem day_names_nodup {l fs ts : List Event}
    (hp : partitionDayEvents l = .ok (fs, ts))
    (hnd : (l.map Event.name).Nodup) :
    ((dayFixedEvents fs).map Event.name
      ++ (dayFlexibleTasks fs ts).map Event.name).Nodup := by
  have hperm1 := partitionDayEvents_names hp
  have hnd2 : (fs.map Event.name ++ ts.map Event.name).Nodup :=
    (List.Perm.nodup_iff hperm1).mpr hnd
  have hperm2 : List.Perm
      ((dayFixedEvents fs).map Event.name ++ (dayFlexibleTasks fs ts).map Event.name)
      (fs.map Event.name ++ ts.map Event.name) := by
    rw [← Multiset.coe_eq_coe, ← Multiset.coe_add, ← Multiset.coe_add]
    exact dayEvents_names fs ts
  exact (List.Perm.nodup_iff hperm2).mpr hnd2

/-- C5 (amended): on every successful, error-free `optimize_day_events` run
over events with distinct names, every input event appears in the output by
name; a Fixed event kept by the fixed/fixed scan appears verbatim — its
own start/end and all other fields, with only the type normalized to
"fixed"; a Flexible task appears with solver-assigned start/end and all
other fields (durationMinutes, window, pass-through extras) preserved; a
Fixed event demoted by the scan reappears as a Flexible task carrying only
its name and duration — its pass-through fields are dropped; and the output
is sorted by start ascending. -/
theorem c5_output_preservation (l : List Event) (oracle : Oracle) (r : OptOut)
    (fs ts : List Event)
    (hp : partitionDayEvents l = .ok (fs, ts))
    (hr : optimize_day_events l oracle = .ok r) (herr : r.error = none)
    (hnd : (l.map Event.name).Nodup) :
    (∀ e ∈ l, ∃ e2 ∈ r.events, e2.name = e.name) ∧
    (∀ e ∈ l, e.type_ ≠ some "flexible" →
      { e with type_ := some "fixed" } ∈ dayFixedEvents fs →
      { e with type_ := some "fixed" } ∈ r.events) ∧
    (∀ e ∈ l, e.type_ = some "flexible" → ∃ s,
      ({ toFlexibleTask e with
          start := some s
          end_ := some (s + flexDuration e) } : Event) ∈ r.events) ∧
    (∀ e ∈ l, e.type_ ≠ some "flexible" →
      { e with type_ := some "fixed" } ∉ dayFixedEvents fs → ∃ s,
      ({ demotedTask e with
          start := some s
          end_ := some (s + flexFallbackDuration e) } : Event) ∈ r.events) ∧
    List.Sorted startLe r.events := by
  have hnames := optimize_day_events_names hr herr
  by_cases hne0 : l.isEmpty = true
  · rw [List.isEmpty_iff] at hne0
    subst hne0
    have hre : r = ⟨[], none⟩ := by
      have : optimize_day_events [] oracle = .ok ⟨[], none⟩ := rfl
      rw [this] at hr
      exact (Except.ok.inj hr).symm
    subst hre
    exact ⟨hnames, fun e he => absurd he (List.not_mem_nil e),
      fun e he => absurd he (List.not_mem_nil e),
      fun e he => absurd he (List.not_mem_nil e), List.sorted_nil⟩
  rw [Bool.not_eq_true] at hne0
  rw [optimize_day_events_eq oracle hne0 hp] at hr
  by_cases hflex : (dayFlexibleTasks fs ts).isEmpty = true
  · rw [if_pos hflex] at hr
    have hre : r = ⟨sortByStart (dayFixedEvents fs), none⟩ := (Except.ok.inj hr).symm
    subst hre
    rw [List.isEmpty_iff] at hflex
    refine ⟨hnames, ?_, ?_, ?_, sorted_sortByStart _⟩
    · intro e he hty hk
      exact mem_sortByStart.mpr hk
    · intro e he hty
      rcases partitionDayEvents_cover hp e he with ⟨_, hmem⟩ | ⟨hty2, _⟩
      · exact absurd (hflex ▸ subset_dayFlexibleTasks fs ts _ hmem)
          (List.not_mem_nil _)
      · exact absurd hty hty2
    · intro e he hty hk
      rcases partitionDayEvents_cover hp e he with ⟨hty2, _⟩ | ⟨_, hmem⟩
      · exact absurd hty2 hty
      · rcases dayFixedEvents_total fs ts _ hmem with hk2 | hk2
        · exact absurd hk2 hk
        · exact absurd (hflex ▸ hk2) (List.not_mem_nil _)
  · rw [if_neg hflex] at hr
    rw [Bool.not_eq_true] at hflex
    rcases hsd : schedule_day (dayFixedEvents fs) (dayFlexibleTasks fs ts) oracle
      with serr | evs
    · rcases serr with _ | msg | _ <;> rw [hsd] at hr
      · cases hr
      · have hre : r = ⟨l, some msg⟩ := (Except.ok.inj hr).symm
        rw [hre] at herr
        simp at herr
      · cases hr
    · rw [hsd] at hr
      have hre : r = ⟨evs, none⟩ := (Except.ok.inj hr).symm
      subst hre
      obtain ⟨b, asg, hb, ho, hsolve⟩ := schedule_day_ok_decompose hflex hsd
      have hndDay := day_names_nodup hp hnd
      obtain ⟨hmemF, hmemT, hsorted⟩ := solve_schedule_mem hb hndDay ho hsolve
      obtain ⟨hfswf, _⟩ := day_inputs_wf hp
      refine ⟨hnames, ?_, ?_, ?_, hsorted⟩
      · intro e he hty hk
        obtain ⟨hs0, hf0⟩ := hfswf _ hk
        rcases hsv2 : ({ e with type_ := some "fixed" } : Event).start with _ | s
        · rw [hsv2] at hs0; cases hs0
        rcases hfv2 : ({ e with type_ := some "fixed" } : Event).end_ with _ | fi
        · rw [hfv2] at hf0; cases hf0
        have hmem2 := hmemF _ hk
        rw [solveFixedOut_eq hb hndDay hk hsv2 hfv2] at hmem2
        rw [event_update_fold _ hsv2 hfv2 (some "fixed"), hsv2, hfv2] at hmem2
        exact hmem2
      · intro e he hty
        have hts : toFlexibleTask e ∈ ts := by
          rcases partitionDayEvents_cover hp e he with ⟨_, hmem⟩ | ⟨hty2, _⟩
          · exact hmem
          · exact absurd hty hty2
        have htk := subset_dayFlexibleTasks fs ts _ hts
        have hmem2 := hmemT _ htk
        rw [solveFlexOut_eq hb hndDay htk rfl asg] at hmem2
        exact ⟨DAY_START_MIN + asg (toFlexibleTask e).name, hmem2⟩
      · intro e he hty hk
        have hmemfs : ({ e with type_ := some "fixed" } : Event) ∈ fs := by
          rcases partitionDayEvents_cover hp e he with ⟨hty2, _⟩ | ⟨_, hmem⟩
          · exact absurd hty2 hty
          · exact hmem
        rcases dayFixedEvents_total fs ts _ hmemfs with hk2 | hk2
        · exact absurd hk2 hk
        · have hmem2 := hmemT _ hk2
          rw [solveFlexOut_eq hb hndDay hk2 rfl asg] at hmem2
          exact ⟨DAY_START_MIN
            + asg (demotedTask { e with type_ := some "fixed" }).name, hmem2⟩

/-- Fixed event with a pass-through field, kept by the scan (C5
counterexample). -/
def c5A : Event :=
  { name := "Client Call", type_ := some "fixed", start := some 540,
    end_ := some 600, extra := [("externalRef", "cal-A")] }

/-- Overlapping fixed event with a pass-through field, demoted by the scan
(C5 counterexample). -/
def c5B : Event :=
  { name := "Board Review", type_ := some "fixed", start := some 570,
    end_ := some 630, extra := [("externalRef", "cal-B")] }

/-- Oracle for the C5 counterexample: places every flexible start at minute
0 of the day window. -/
def c5Oracle : Oracle := fun _ => some (fun _ => 0)

/-- The run's output for the demoted event (only name, type, duration and
the solved times survive). -/
def c5BOut : Event :=
  { name := "Board Review", type_ := some "flexible", start := some 480,
    end_ := some 540, durationMinutes := some 60 }

/-- C5 counterexample: two overlapping Fixed events; the later one is
demoted to Flexible and reappears in the successful output WITHOUT its
`externalRef` pass-through field — demotion keeps only name and duration,
so pass-through preservation fails exactly in the demotion case the claim
includes. -/
theorem c5_counterexample_extras_dropped :
    optimize_day_events [c5A, c5B] c5Oracle = .ok ⟨[c5BOut, c5A], none⟩ ∧
    c5B.extra = [("externalRef", "cal-B")] ∧
    (∀ e2 ∈ [c5BOut, c5A], e2.name = c5B.name → e2.extra = []) := by
  decide

/-- Fixed event used to witness the amended C5. -/
def c5wF : Event :=
  { name := "Seminar", type_ := some "fixed", start := some 540,
    end_ := some 600, extra := [("externalRef", "w-1")] }

/-- Flexible task used to witness the amended C5. -/
def c5wT : Event :=
  { name := "Essay", type_ := some "flexible", durationMinutes := some 60,
    extra := [("externalRef", "w-2")] }

/-- Oracle used to witness the amended C5. -/
def c5wOracle : Oracle := fun _ => some (fun _ => 0)

/-- The successful output of the witness run. -/
def c5wResult : OptOut :=
  ⟨[{ c5wT with start := some 480, end_ := some 540 }, c5wF], none⟩

/-- Witness for the amended C5: the fixed event survives verbatim (with its
pass-through field), the flexible task appears re-timed with its
pass-through field, and the output is sorted by start. -/
theorem c5_output_preservation_witness :
    ({ c5wF with type_ := some "fixed" } : Event) ∈ c5wResult.events ∧
    (∃ s, ({ toFlexibleTask c5wT with
        start := some s
        end_ := some (s + flexDuration c5wT) } : Event) ∈ c5wResult.events) ∧
    List.Sorted startLe c5wResult.events := by
  have H := c5_output_preservation [c5wF, c5wT] c5wOracle c5wResult
    [c5wF] [toFlexibleTask c5wT] (by decide) (by decide) rfl (by decide)
  exact ⟨H.2.1 c5wF (by decide) (by decide) (by decide),
    H.2.2.1 c5wT (by decide) rfl, H.2.2.2.2⟩
